import Mathlib

/-
  Verification development for the mixed-radix FFT engine of
  kiss_fft.c (KISS FFT, SIMD-flavoured copy in this repository).

  The engine's complex samples are embedded as Lean's ℂ (the spec treats
  the numeric type abstractly as a complex scalar with floating
  components; here exact complex arithmetic stands in for float
  arithmetic, so "within floating-point tolerance" becomes exact
  equality).  Buffers are embedded as functions ℕ → ℂ (resp. ℕ → ℝ for
  the SIMD float adapters), loops as structural/fueled recursion, and
  the imperative in-place entry point additionally as a flat-memory
  model (Mem = ℕ → ℂ) so that aliasing and early-return behaviour can
  be stated.
-/

open Complex Finset

/-- Modelled from the spec: the complex-arithmetic macros of
`_kiss_fft_guts.h` are not part of this repository's single source file;
the spec (§1, §3) treats samples as complex scalars with ordinary
complex multiply/add in the floating-point backend.  `C_MUL` is complex
multiplication. -/
noncomputable def C_MUL (a b : ℂ) : ℂ := a * b

/-- Modelled from the spec: `C_FIXDIV` is the fixed-point scale guard,
"in a floating-point backend this division is an identity no-op" (§4.3). -/
noncomputable def C_FIXDIV (a : ℂ) (_div : ℕ) : ℂ := a

/-- Modelled from the spec: componentwise complex addition macro. -/
noncomputable def C_ADD (a b : ℂ) : ℂ := a + b

/-- Modelled from the spec: componentwise complex subtraction macro. -/
noncomputable def C_SUB (a b : ℂ) : ℂ := a - b

/-- Modelled from the spec: `HALF_OF(x)` halves a real scalar. -/
noncomputable def HALF_OF (x : ℝ) : ℝ := x / 2

/-- Modelled from the spec: `S_MUL` multiplies two real scalars. -/
noncomputable def S_MUL (a b : ℝ) : ℝ := a * b

/-- Modelled from the spec: `C_MULBYSCALAR(c, s)` scales both components
of a complex sample by the real scalar `s`. -/
noncomputable def C_MULBYSCALAR (a : ℂ) (s : ℝ) : ℂ := ⟨a.re * s, a.im * s⟩

/-- Modelled from the spec: `kf_cexp(x, phase)` stores
`(cos phase, sin phase)` (§4.2: entries are complex exponentials
computed independently per index). -/
noncomputable def kf_cexp (phase : ℝ) : ℂ := ⟨Real.cos phase, Real.sin phase⟩

/-- The phase of twiddle entry `i`: `-2*pi*i/nfft`, negated for the
inverse transform (kiss_fft_alloc, lines 360-363). -/
noncomputable def kfPhase (nfft : ℕ) (inverse : Bool) (i : ℕ) : ℝ :=
  let phase : ℝ := -2 * Real.pi * i / nfft
  if inverse then -phase else phase

/-- Twiddle table entry `i` of a plan for length `nfft`
(kiss_fft_alloc's construction loop). -/
noncomputable def twiddle (nfft : ℕ) (inverse : Bool) (i : ℕ) : ℂ :=
  kf_cexp (kfPhase nfft inverse i)

/-- The plan (`struct kiss_fft_state`): length, direction flag, twiddle
table and flat factor buffer `p1, m1, p2, m2, ...`. -/
structure kiss_fft_state where
  nfft : ℕ
  inverse : Bool
  twiddles : ℕ → ℂ
  factors : List ℕ

/-- The trial-radix advance of `kf_factor`'s switch:
`case 4: p = 2; case 2: p = 3; default: p += 2;`. -/
def kfNextP (p : ℕ) : ℕ :=
  if p = 4 then 2 else if p = 2 then 3 else p + 2

/-- The inner `while (n % p)` loop of `kf_factor`: advance the trial
radix, clamping to the remaining `n` once it passes `floor_sqrt`.
The C loop has no fuel; the fuel argument only bounds the number of
iterations we unfold, and all callers pass enough fuel for the loop to
reach its exit condition (proved below). -/
def kfFindP (n fsqrt : ℕ) : ℕ → ℕ → ℕ
  | 0, p => p
  | fuel + 1, p =>
    if n % p = 0 then p
    else
      let p1 := kfNextP p
      let p2 := if fsqrt < p1 then n else p1
      kfFindP n fsqrt fuel p2

/-- The outer `do { ... } while (n > 1)` loop of `kf_factor`: extract a
radix, emit the pair `p, n/p`, continue on the quotient.  Fueled like
the inner loop; `kf_factor` passes fuel `n+1`, which suffices since the
remaining length strictly decreases. -/
def kfFactorLoop (fsqrt : ℕ) : ℕ → ℕ → ℕ → List ℕ
  | 0, _, _ => []
  | fuel + 1, n, p =>
    let p2 := kfFindP n fsqrt (n + fsqrt + 5) p
    let m := n / p2
    p2 :: m :: (if 1 < m then kfFactorLoop fsqrt fuel m p2 else [])

/-- `kf_factor(n, facbuf)`: `floor_sqrt` is computed once from the
original `n` (line 313) and the trial radix starts at 4. -/
def kf_factor (n : ℕ) : List ℕ :=
  kfFactorLoop (Nat.sqrt n) (n + 1) n 4

/-- `kiss_fft_alloc(nfft, inverse_fft, NULL, NULL)` on the successful
path: store the length and direction, build the twiddle table, factor
the length. -/
noncomputable def kiss_fft_alloc (nfft : ℕ) (inverse_fft : Bool) : kiss_fft_state :=
  ⟨nfft, inverse_fft, twiddle nfft inverse_fft, kf_factor nfft⟩

/-- `kf_bfly2`: butterfly positions `u` and `u+m` are combined as
sum and twiddle-weighted difference, `tw1` stepping by `fstride`. -/
noncomputable def kf_bfly2 (Fout : ℕ → ℂ) (fstride : ℕ) (st : kiss_fft_state) (m : ℕ) :
    ℕ → ℂ := fun k =>
  if k < 2 * m then
    let u := k % m
    let t := C_MUL (C_FIXDIV (Fout (u + m)) 2) (st.twiddles (u * fstride))
    if k < m then C_ADD (C_FIXDIV (Fout u) 2) t
    else C_SUB (C_FIXDIV (Fout u) 2) t
  else Fout k

/-- `kf_bfly3`: three-point combine using `epi3 = twiddles[fstride*m]`,
with the `-1/2` real part implicit through `HALF_OF`, and the
swap-and-negate cross terms written componentwise as in the source. -/
noncomputable def kf_bfly3 (Fout : ℕ → ℂ) (fstride : ℕ) (st : kiss_fft_state) (m : ℕ) :
    ℕ → ℂ := fun k =>
  if k < 3 * m then
    let u := k % m
    let epi3 := st.twiddles (fstride * m)
    let s1 := C_MUL (C_FIXDIV (Fout (u + m)) 3) (st.twiddles (u * fstride))
    let s2 := C_MUL (C_FIXDIV (Fout (u + 2 * m)) 3) (st.twiddles (u * (fstride * 2)))
    let s3 := C_ADD s1 s2
    let s0 := C_SUB s1 s2
    let Fm : ℂ := ⟨(C_FIXDIV (Fout u) 3).re - HALF_OF s3.re,
                   (C_FIXDIV (Fout u) 3).im - HALF_OF s3.im⟩
    let s0e := C_MULBYSCALAR s0 epi3.im
    if k < m then C_ADD (C_FIXDIV (Fout u) 3) s3
    else if k < 2 * m then ⟨Fm.re - s0e.im, Fm.im + s0e.re⟩
    else ⟨Fm.re + s0e.im, Fm.im - s0e.re⟩
  else Fout k

/-- `kf_bfly4`: two folded radix-2 combines; the quarter-turn rotation
at the odd output positions is a swap-and-negate whose sign depends on
`st.inverse` (lines 73-83). -/
noncomputable def kf_bfly4 (Fout : ℕ → ℂ) (fstride : ℕ) (st : kiss_fft_state) (m : ℕ) :
    ℕ → ℂ := fun k =>
  if k < 4 * m then
    let u := k % m
    let s0 := C_MUL (C_FIXDIV (Fout (u + m)) 4) (st.twiddles (u * fstride))
    let s1 := C_MUL (C_FIXDIV (Fout (u + 2 * m)) 4) (st.twiddles (u * (fstride * 2)))
    let s2 := C_MUL (C_FIXDIV (Fout (u + 3 * m)) 4) (st.twiddles (u * (fstride * 3)))
    let s5 := C_SUB (C_FIXDIV (Fout u) 4) s1
    let f0 := C_ADD (C_FIXDIV (Fout u) 4) s1
    let s3 := C_ADD s0 s2
    let s4 := C_SUB s0 s2
    if k < m then C_ADD f0 s3
    else if k < 2 * m then
      if st.inverse then ⟨s5.re - s4.im, s5.im + s4.re⟩
      else ⟨s5.re + s4.im, s5.im - s4.re⟩
    else if k < 3 * m then C_SUB f0 s3
    else
      if st.inverse then ⟨s5.re + s4.im, s5.im - s4.re⟩
      else ⟨s5.re - s4.im, s5.im + s4.re⟩
  else Fout k

/-- `kf_bfly5`: five-point combine through the primitive 5th-root
twiddles `ya = twiddles[fstride*m]`, `yb = twiddles[fstride*2*m]`,
with the four sum/difference pairs and the componentwise cross terms
exactly as in lines 155-190. -/
noncomputable def kf_bfly5 (Fout : ℕ → ℂ) (fstride : ℕ) (st : kiss_fft_state) (m : ℕ) :
    ℕ → ℂ := fun k =>
  if k < 5 * m then
    let u := k % m
    let ya := st.twiddles (fstride * m)
    let yb := st.twiddles (fstride * (2 * m))
    let s0 := C_FIXDIV (Fout u) 5
    let s1 := C_MUL (C_FIXDIV (Fout (u + m)) 5) (st.twiddles (u * fstride))
    let s2 := C_MUL (C_FIXDIV (Fout (u + 2 * m)) 5) (st.twiddles (2 * u * fstride))
    let s3 := C_MUL (C_FIXDIV (Fout (u + 3 * m)) 5) (st.twiddles (3 * u * fstride))
    let s4 := C_MUL (C_FIXDIV (Fout (u + 4 * m)) 5) (st.twiddles (4 * u * fstride))
    let s7 := C_ADD s1 s4
    let s10 := C_SUB s1 s4
    let s8 := C_ADD s2 s3
    let s9 := C_SUB s2 s3
    if k < m then ⟨s0.re + s7.re + s8.re, s0.im + s7.im + s8.im⟩
    else
      let s5 : ℂ := ⟨s0.re + S_MUL s7.re ya.re + S_MUL s8.re yb.re,
                     s0.im + S_MUL s7.im ya.re + S_MUL s8.im yb.re⟩
      let s6 : ℂ := ⟨S_MUL s10.im ya.im + S_MUL s9.im yb.im,
                     -(S_MUL s10.re ya.im) - S_MUL s9.re yb.im⟩
      let s11 : ℂ := ⟨s0.re + S_MUL s7.re yb.re + S_MUL s8.re ya.re,
                      s0.im + S_MUL s7.im yb.re + S_MUL s8.im ya.re⟩
      let s12 : ℂ := ⟨-(S_MUL s10.im yb.im) + S_MUL s9.im ya.im,
                      S_MUL s10.re yb.im - S_MUL s9.re ya.im⟩
      if k < 2 * m then C_SUB s5 s6
      else if k < 3 * m then C_ADD s11 s12
      else if k < 4 * m then C_SUB s11 s12
      else C_ADD s5 s6
  else Fout k

/-- One step of the generic butterfly's twiddle-index accumulator:
`twidx += fstride * k; if (twidx >= Norig) twidx -= Norig;`. -/
def kfTwidxNext (Norig fstride k twidx : ℕ) : ℕ :=
  let t := twidx + fstride * k
  if Norig ≤ t then t - Norig else t

/-- The value of the generic butterfly's `twidx` after `q` accumulation
steps for output position `k` (it starts at 0 each position). -/
def kfTwidx (Norig fstride k : ℕ) : ℕ → ℕ
  | 0 => 0
  | q + 1 => kfTwidxNext Norig fstride k (kfTwidx Norig fstride k q)

/-- `kf_bfly_generic`: snapshot the `p` radix-separated inputs into
`scratch`, then for each output position accumulate
`scratch[q] * twiddles[twidx]` with the running modular index. -/
noncomputable def kf_bfly_generic (Fout : ℕ → ℂ) (fstride : ℕ) (st : kiss_fft_state)
    (m p : ℕ) : ℕ → ℂ := fun k =>
  if k < p * m then
    let u := k % m
    let scratch : ℕ → ℂ := fun q1 => C_FIXDIV (Fout (u + q1 * m)) p
    let acc := (List.range (p - 1)).foldl
      (fun (s : ℕ × ℂ) q =>
        let twidx := kfTwidxNext st.nfft fstride k s.1
        (twidx, C_ADD s.2 (C_MUL (scratch (q + 1)) (st.twiddles twidx))))
      (0, scratch 0)
    acc.2
  else Fout k

/-- The radix dispatch switch of `kf_work` (lines 295-301). -/
noncomputable def kf_bfly (st : kiss_fft_state) (p : ℕ) (Fout : ℕ → ℂ)
    (fstride m : ℕ) : ℕ → ℂ :=
  if p = 2 then kf_bfly2 Fout fstride st m
  else if p = 3 then kf_bfly3 Fout fstride st m
  else if p = 4 then kf_bfly4 Fout fstride st m
  else if p = 5 then kf_bfly5 Fout fstride st m
  else kf_bfly_generic Fout fstride st m p

/-- `kf_work` as a pure function: pop `(p, m)` off the factor buffer;
for `m = 1` the base case copies `p` decimated samples
(`f` stepping by `fstride*in_stride`); otherwise each of the `p`
sub-blocks of length `m` is the recursive transform of the further
decimated input; finally the radix-`p` butterfly combines the block.
Output position `j` of the block lives in sub-block `j / m` at offset
`j % m`. -/
noncomputable def kf_work (st : kiss_fft_state) :
    List ℕ → (ℕ → ℂ) → ℕ → ℕ → (ℕ → ℂ)
  | p :: m :: rest, f, fstride, in_stride =>
    let Fsub : ℕ → ℂ :=
      if m = 1 then fun j => f (j * (fstride * in_stride))
      else fun j =>
        kf_work st rest (fun i => f (i + (j / m) * (fstride * in_stride)))
          (fstride * p) in_stride (j % m)
    kf_bfly st p Fsub fstride m
  | _, f, _, _ => f
termination_by fs _ _ _ => fs.length
decreasing_by simp; omega

/-- `kiss_fft_stride` on the non-aliased path (the aliased path computes
the same values through a temporary buffer; see the memory model
below): run `kf_work` with top-level twiddle stride 1. -/
noncomputable def kiss_fft_stride (st : kiss_fft_state) (fin : ℕ → ℂ)
    (in_stride : ℕ) : ℕ → ℂ :=
  kf_work st st.factors fin 1 in_stride

/-- `kiss_fft(cfg, fin, fout) = kiss_fft_stride(cfg, fin, fout, 1)`. -/
noncomputable def kiss_fft (st : kiss_fft_state) (fin : ℕ → ℂ) : ℕ → ℂ :=
  kiss_fft_stride st fin 1

/-- The inner strip loop of `kiss_fft_next_fast_size`:
`while ((m % k) == 0) m /= k;`.  Returns `none` when the fuel runs out,
which happens exactly on the non-terminating input `m = 0` (where the C
loop spins forever) when given any fuel. -/
def divLoop (k : ℕ) : ℕ → ℕ → Option ℕ
  | 0, _ => none
  | fuel + 1, m => if m % k = 0 then divLoop k fuel (m / k) else some m

/-- The outer `while(1)` search loop of `kiss_fft_next_fast_size`:
strip factors 2, 3, 5 from a copy of `n`; if nothing remains, `n` is
the answer, else try `n+1`. -/
def nextFastLoop : ℕ → ℕ → Option ℕ
  | 0, _ => none
  | fuel + 1, n =>
    match divLoop 2 (n + 1) n with
    | none => none
    | some m2 =>
      match divLoop 3 (m2 + 1) m2 with
      | none => none
      | some m3 =>
        match divLoop 5 (m3 + 1) m3 with
        | none => none
        | some m5 => if m5 ≤ 1 then some n else nextFastLoop fuel (n + 1)

/-- `kiss_fft_next_fast_size(n)`.  The fuel `n+2` suffices for every
`n ≥ 1` (a power of two below `2n` is always 2-3-5-smooth, proved
below); for `n = 0` the C loop never terminates and the model returns
`none` for every choice of fuel. -/
def kiss_fft_next_fast_size (n : ℕ) : Option ℕ :=
  nextFastLoop (n + 2) n

/-- Lane selector for the four source/target signals of the SIMD
adapters (`_mm_set_ps(s3, s2, s1, s0)` stores lane 0 lowest). -/
noncomputable def laneSig (s0 s1 s2 s3 : ℕ → ℝ) (lane : ℕ) : ℕ → ℝ :=
  if lane = 0 then s0 else if lane = 1 then s1 else if lane = 2 then s2 else s3

/-- `SSETools_pack128`: float `4*t + lane` of the target receives
element `t` of block `lane` of the source (`source + lane*size128`);
floats outside the written range keep the target's prior contents. -/
noncomputable def SSETools_pack128 (target source : ℕ → ℝ) (size128 : ℕ) : ℕ → ℝ :=
  fun i =>
    if i < 4 * size128 then source ((i % 4) * size128 + i / 4)
    else target i

/-- `SSETools_unpack128`: element `t` of target block `lane` receives
float `4*t + lane` of the source. -/
noncomputable def SSETools_unpack128 (target source : ℕ → ℝ) (size128 : ℕ) : ℕ → ℝ :=
  fun i =>
    if i < 4 * size128 then source (4 * (i % size128) + i / size128)
    else target i

/-- `SSETools_pack_2_128_complex`: for element `e` of the four
interleaved complex signals, target floats `8e+0..3` receive the four
real parts (source offset `2e`) and `8e+4..7` the four imaginary parts
(source offset `2e+1`). -/
noncomputable def SSETools_pack_2_128_complex (target s0 s1 s2 s3 : ℕ → ℝ)
    (num_elem_fft : ℕ) : ℕ → ℝ := fun i =>
  if i < 8 * num_elem_fft then
    laneSig s0 s1 s2 s3 (i % 8 % 4) (2 * (i / 8) + i % 8 / 4)
  else target i

/-- `SSETools_unpack_2_128_complex`: float `j` of target signal `lane`
(`j = 2e` real, `j = 2e+1` imaginary) receives source float
`8e + 4*(j%2) + lane`.  The four target buffers are modelled as one
lane-indexed family. -/
noncomputable def SSETools_unpack_2_128_complex (target : ℕ → ℕ → ℝ) (source : ℕ → ℝ)
    (num_elem_fft : ℕ) : ℕ → ℕ → ℝ := fun lane j =>
  if lane < 4 ∧ j < 2 * num_elem_fft then
    source (8 * (j / 2) + 4 * (j % 2) + lane)
  else target lane j

/-- Flat memory of complex cells, for the imperative model of
`kiss_fft_stride`'s aliasing behaviour. -/
abbrev Mem := ℕ → ℂ

/-- The base-case copy loop of `kf_work`
(`*Fout = *f; f += fstride*in_stride;` repeated `p` times), performed
sequentially in ascending order on a flat memory. -/
noncomputable def kfLeafCopy (inA outA s : ℕ) : ℕ → Mem → Mem
  | 0, mem => mem
  | k + 1, mem =>
    let mem1 := kfLeafCopy inA outA s k mem
    Function.update mem1 (outA + k) (mem1 (inA + k * s))

/-- Overwrite the `len` cells starting at `a` with the block `g`. -/
noncomputable def kfBlockWrite (mem : Mem) (a len : ℕ) (g : ℕ → ℂ) : Mem := fun x =>
  if a ≤ x ∧ x < a + len then g (x - a) else mem x

/-- `kf_work` on a flat memory: the leaf copy and the recursive
sub-block calls write into the output region exactly as the pointer
code does; the in-place butterfly (whose per-iteration reads all
precede its writes on the same positions) is applied to the block. -/
noncomputable def kf_work_mem (st : kiss_fft_state) :
    List ℕ → Mem → ℕ → ℕ → ℕ → ℕ → Mem
  | p :: m :: rest, mem, outA, inA, fstride, in_stride =>
    let mem1 :=
      if m = 1 then kfLeafCopy inA outA (fstride * in_stride) p mem
      else
        (List.range p).foldl
          (fun mm c =>
            kf_work_mem st rest mm (outA + c * m)
              (inA + c * (fstride * in_stride)) (fstride * p) in_stride)
          mem
    kfBlockWrite mem1 outA (p * m)
      (kf_bfly st p (fun j => mem1 (outA + j)) fstride m)
  | _, mem, _, _, _, _ => mem
termination_by fs _ _ _ _ _ => fs.length
decreasing_by simp; omega

/-- `memcpy(fout, tmpbuf, sizeof(kiss_fft_cpx)*st->nfft)` between
non-overlapping regions. -/
noncomputable def memcpyRange (mem : Mem) (dst src n : ℕ) : Mem := fun x =>
  if dst ≤ x ∧ x < dst + n then mem (src + (x - dst)) else mem x

/-- `kiss_fft_stride` on a flat memory.  `finA`/`foutA` are the buffer
addresses, `foutNull` models `fout == NULL` on the aliased path, and
`tmpAllocOk` models the success of `KISS_FFT_TMP_ALLOC` for the
`nfft`-length scratch buffer at `tmpA`.  On either error the function
reports and returns before touching memory. -/
noncomputable def kiss_fft_stride_mem (st : kiss_fft_state) (mem : Mem)
    (finA foutA in_stride tmpA : ℕ) (foutNull tmpAllocOk : Bool) : Mem :=
  if finA = foutA then
    if foutNull then mem
    else if tmpAllocOk = false then mem
    else
      let mem1 := kf_work_mem st st.factors mem tmpA finA 1 in_stride
      memcpyRange mem1 foutA tmpA st.nfft
  else
    kf_work_mem st st.factors mem foutA finA 1 in_stride

/-- Specification-side predicate: `fs` is a well-formed flat factor
buffer for length `n` (`p1, m1, p2, m2, ...` with `p*m` equal to the
previous remaining length and the final remaining length 1). -/
def factChainB : ℕ → List ℕ → Bool
  | n, p :: m :: rest =>
    p * m == n && (if m ≤ 1 then m == 1 && rest.isEmpty else factChainB m rest)
  | _, _ => false

/-- The `(radix, remaining)` pairs of a flat factor buffer. -/
def facPairs : List ℕ → List (ℕ × ℕ)
  | p :: m :: rest => (p, m) :: facPairs rest
  | _ => []

/-- Specification-side predicate for C3: walking the pair list from the
previous remaining length, each pair `(p, m)` satisfies `m = prev / p`
and `p * m = prev`. -/
def chainFromB : ℕ → List (ℕ × ℕ) → Bool
  | _, [] => true
  | prev, (p, m) :: rest => m == prev / p && p * m == prev && chainFromB m rest

/-- Specification-side definition: the discrete Fourier transform of
the first `n` samples of `x`, with the engine's sign convention
(`twiddle n inverse 1` is the engine's own first root of unity). -/
noncomputable def dft (n : ℕ) (inverse : Bool) (x : ℕ → ℂ) (k : ℕ) : ℂ :=
  ∑ j in Finset.range n, x j * (twiddle n inverse 1) ^ (j * k)

/-- Specification-side predicate for C4: `m` factors completely over
`{2, 3, 5}`. -/
def onlyFactors235 (m : ℕ) : Prop :=
  ∀ q : ℕ, q.Prime → q ∣ m → q = 2 ∨ q = 3 ∨ q = 5

/-- The sign of the twiddle phase: `+1` for inverse, `-1` for forward. -/
noncomputable def dirSign (inverse : Bool) : ℝ := if inverse then 1 else -1

/-- Specification-side definition: the butterfly recombination target.
Output position `k` of a radix-`p` block of sub-length `m` is the sum
over the `p` sub-transform values at offset `k % m`, weighted by powers
of the block's root of unity `E`. -/
noncomputable def dftCombine (p m : ℕ) (E : ℂ) (xs : ℕ → ℂ) (k : ℕ) : ℂ :=
  ∑ q in Finset.range p, xs (k % m + q * m) * E ^ (q * k)

lemma kf_cexp_eq (θ : ℝ) : kf_cexp θ = Complex.exp (θ * Complex.I) := by
  rw [Complex.exp_mul_I]
  unfold kf_cexp
  rw [Complex.mk_eq_add_mul_I, Complex.ofReal_cos, Complex.ofReal_sin]

lemma twiddle_exp (N : ℕ) (b : Bool) (i : ℕ) :
    twiddle N b i
      = Complex.exp (((dirSign b * (2 * Real.pi * i / N) : ℝ) : ℂ) * Complex.I) := by
  unfold twiddle kfPhase dirSign
  rw [kf_cexp_eq]
  cases b <;> simp <;> congr 1 <;> push_cast <;> ring

lemma twiddle_zero (N : ℕ) (b : Bool) : twiddle N b 0 = 1 := by
  rw [twiddle_exp]
  norm_num

lemma twiddle_mul_pow (N : ℕ) (b : Bool) (j s : ℕ) :
    twiddle N b (j * s) = (twiddle N b s) ^ j := by
  rw [twiddle_exp, twiddle_exp, ← Complex.exp_nat_mul]
  congr 1
  push_cast
  ring

lemma twiddle_add_N (N : ℕ) (hN : N ≠ 0) (b : Bool) (i : ℕ) :
    twiddle N b (i + N) = twiddle N b i := by
  rw [twiddle_exp, twiddle_exp]
  have hNR : (N : ℝ) ≠ 0 := Nat.cast_ne_zero.mpr hN
  have hNC : (N : ℂ) ≠ 0 := by exact_mod_cast hNR
  cases b
  · have key : ((dirSign false * (2 * Real.pi * ((i + N : ℕ) : ℝ) / N) : ℝ) : ℂ) * Complex.I
        = ((dirSign false * (2 * Real.pi * i / N) : ℝ) : ℂ) * Complex.I
          + ((-1 : ℤ) : ℂ) * (2 * Real.pi * Complex.I) := by
      simp only [dirSign, if_neg Bool.false_ne_true]
      push_cast
      field_simp
      ring
    rw [key, Complex.exp_add, Complex.exp_int_mul_two_pi_mul_I, mul_one]
  · have key : ((dirSign true * (2 * Real.pi * ((i + N : ℕ) : ℝ) / N) : ℝ) : ℂ) * Complex.I
        = ((dirSign true * (2 * Real.pi * i / N) : ℝ) : ℂ) * Complex.I
          + ((1 : ℤ) : ℂ) * (2 * Real.pi * Complex.I) := by
      simp only [dirSign, if_pos rfl]
      push_cast
      field_simp
      ring
    rw [key, Complex.exp_add, Complex.exp_int_mul_two_pi_mul_I, mul_one]

lemma twiddle_add_mul_N (N : ℕ) (hN : N ≠ 0) (b : Bool) (i : ℕ) :
    ∀ q, twiddle N b (i + N * q) = twiddle N b i := by
  intro q
  induction q with
  | zero => simp
  | succ q ih =>
    have : i + N * (q + 1) = (i + N * q) + N := by ring
    rw [this, twiddle_add_N N hN b, ih]

lemma twiddle_mod (N : ℕ) (hN : N ≠ 0) (b : Bool) (i : ℕ) :
    twiddle N b (i % N) = twiddle N b i := by
  conv_rhs => rw [← Nat.mod_add_div i N]
  rw [twiddle_add_mul_N N hN b]

lemma twiddle_stride (N L fstride : ℕ) (b : Bool) (hN : N = fstride * L)
    (hf : 0 < fstride) (hL : 0 < L) :
    twiddle N b fstride = twiddle L b 1 := by
  subst hN
  rw [twiddle_exp, twiddle_exp]
  congr 2
  have hfR : (fstride : ℂ) ≠ 0 := by exact_mod_cast Nat.cast_ne_zero.mpr hf.ne'
  have hLR : (L : ℂ) ≠ 0 := by exact_mod_cast Nat.cast_ne_zero.mpr hL.ne'
  push_cast
  field_simp
  ring

lemma twiddle_pow_eq (L : ℕ) (b : Bool) (j : ℕ) :
    (twiddle L b 1) ^ j = twiddle L b j := by
  rw [← twiddle_mul_pow, mul_one]

lemma twiddle_one_pow_self (L : ℕ) (hL : L ≠ 0) (b : Bool) :
    (twiddle L b 1) ^ L = 1 := by
  rw [twiddle_pow_eq]
  have : twiddle L b L = twiddle L b (0 + L) := by norm_num
  rw [this, twiddle_add_N L hL b, twiddle_zero]


lemma twiddle_eq_mk (N : ℕ) (b : Bool) (i : ℕ) :
    twiddle N b i
      = ⟨Real.cos (dirSign b * (2 * Real.pi * i / N)),
         Real.sin (dirSign b * (2 * Real.pi * i / N))⟩ := by
  cases b
  · have ha : dirSign false * (2 * Real.pi * i / N) = -2 * Real.pi * i / N := by
      simp [dirSign]
      ring
    rw [ha]
    simp [twiddle, kf_cexp, kfPhase]
  · have ha : dirSign true * (2 * Real.pi * i / N) = -(-2 * Real.pi * i / N) := by
      simp [dirSign]
      ring
    rw [ha]
    simp [twiddle, kf_cexp, kfPhase]

lemma conj_of_pow_eq_one {z : ℂ} {p : ℕ} (hp : p ≠ 0) (hz : z ^ p = 1) :
    (starRingEnd ℂ) z = z ^ (p - 1) := by
  have hz0 : z ≠ 0 := by
    intro h
    rw [h, zero_pow hp] at hz
    exact zero_ne_one hz
  have habs : Complex.abs z = 1 := by
    have h1 : Complex.abs z ^ p = 1 := by
      rw [← map_pow, hz, map_one]
    rcases lt_trichotomy (Complex.abs z) 1 with hlt | heq | hgt
    · have := pow_lt_one₀ (Complex.abs.nonneg z) hlt hp
      rw [h1] at this
      exact absurd this (lt_irrefl 1)
    · exact heq
    · have := one_lt_pow₀ hgt hp
      rw [h1] at this
      exact absurd this (lt_irrefl 1)
  have hmc : z * (starRingEnd ℂ) z = 1 := by
    rw [Complex.mul_conj, Complex.normSq_eq_abs, habs]
    norm_num
  have hzp : z * z ^ (p - 1) = 1 := by
    rw [← pow_succ', Nat.sub_add_cancel (Nat.one_le_iff_ne_zero.mpr hp)]
    exact hz
  exact mul_left_cancel₀ hz0 (hmc.trans hzp.symm)

lemma twiddle_prim_pow (p m : ℕ) (hpm : p * m ≠ 0) (b : Bool) :
    (twiddle (p * m) b m) ^ p = 1 := by
  rw [← twiddle_mul_pow]
  have h0 : twiddle (p * m) b (p * m) = twiddle (p * m) b (0 + p * m) := by norm_num
  rw [h0, twiddle_add_N _ hpm, twiddle_zero]

lemma twiddle_half_eq (m : ℕ) (hm : 0 < m) (b : Bool) :
    twiddle (2 * m) b m = -1 := by
  rw [twiddle_eq_mk]
  have hmR : (m : ℝ) ≠ 0 := Nat.cast_ne_zero.mpr hm.ne'
  have harg : dirSign b * (2 * Real.pi * (m : ℝ) / ((2 * m : ℕ) : ℝ))
      = dirSign b * Real.pi := by
    push_cast
    field_simp
    ring
  rw [harg]
  cases b <;>
    simp [dirSign, Complex.ext_iff, Real.cos_pi, Real.sin_pi]

lemma twiddle_quarter_eq (m : ℕ) (hm : 0 < m) (b : Bool) :
    twiddle (4 * m) b m = if b then Complex.I else -Complex.I := by
  rw [twiddle_eq_mk]
  have hmR : (m : ℝ) ≠ 0 := Nat.cast_ne_zero.mpr hm.ne'
  have harg : dirSign b * (2 * Real.pi * (m : ℝ) / ((4 * m : ℕ) : ℝ))
      = dirSign b * (Real.pi / 2) := by
    push_cast
    field_simp
    ring
  rw [harg]
  cases b <;>
    simp [dirSign, Complex.ext_iff, Real.cos_pi_div_two, Real.sin_pi_div_two]

lemma twiddle_third_re (m : ℕ) (hm : 0 < m) (b : Bool) :
    (twiddle (3 * m) b m).re = -(1 / 2) := by
  rw [twiddle_eq_mk]
  have hmR : (m : ℝ) ≠ 0 := Nat.cast_ne_zero.mpr hm.ne'
  have harg : dirSign b * (2 * Real.pi * (m : ℝ) / ((3 * m : ℕ) : ℝ))
      = dirSign b * (2 * (Real.pi / 3)) := by
    push_cast
    field_simp
    ring
  rw [harg]
  have hcv : Real.cos (2 * (Real.pi / 3)) = -(1 / 2) := by
    rw [Real.cos_two_mul, Real.cos_pi_div_three]
    norm_num
  cases b <;> simp [dirSign] <;> linarith [hcv]

lemma twiddle_third_ne_one (m : ℕ) (hm : 0 < m) (b : Bool) :
    twiddle (3 * m) b m ≠ 1 := by
  intro h
  have h2 := congrArg Complex.re h
  rw [twiddle_third_re m hm b, Complex.one_re] at h2
  norm_num at h2

lemma third_root_sum {W : ℂ} (h3 : W ^ 3 = 1) (hne : W ≠ 1) :
    1 + W + W ^ 2 = 0 := by
  have hfac : (W - 1) * (1 + W + W ^ 2) = 0 := by linear_combination h3
  rcases mul_eq_zero.mp hfac with h | h
  · exact absurd (sub_eq_zero.mp h) hne
  · exact h

lemma mk_x_plus_I_y (x y : ℂ) :
    (⟨x.re - y.im, x.im + y.re⟩ : ℂ) = x + Complex.I * y := by
  rw [Complex.ext_iff]
  constructor <;> simp <;> ring

lemma mk_x_minus_I_y (x y : ℂ) :
    (⟨x.re + y.im, x.im - y.re⟩ : ℂ) = x - Complex.I * y := by
  rw [Complex.ext_iff]
  constructor <;> simp <;> ring

lemma mulByScalar_eq (x : ℂ) (c : ℝ) : C_MULBYSCALAR x c = (c : ℂ) * x := by
  unfold C_MULBYSCALAR
  rw [Complex.ext_iff]
  constructor <;> simp <;> ring

lemma div_two_mk (y : ℂ) : (y / 2 : ℂ) = ⟨y.re / 2, y.im / 2⟩ := by
  rw [Complex.ext_iff]
  constructor <;>
    simp [Complex.div_re, Complex.div_im, Complex.normSq] <;> ring

lemma mk_x_minus_half (x y : ℂ) :
    (⟨x.re - HALF_OF y.re, x.im - HALF_OF y.im⟩ : ℂ) = x - y / 2 := by
  rw [div_two_mk, Complex.ext_iff]
  unfold HALF_OF
  constructor <;> simp

lemma mk_sum3 (x y z : ℂ) :
    (⟨x.re + y.re + z.re, x.im + y.im + z.im⟩ : ℂ) = x + y + z := by
  rw [Complex.ext_iff]
  constructor <;> simp

lemma mk_scalar3 (x y z : ℂ) (a b : ℝ) :
    (⟨x.re + S_MUL y.re a + S_MUL z.re b,
      x.im + S_MUL y.im a + S_MUL z.im b⟩ : ℂ)
      = x + (a : ℂ) * y + (b : ℂ) * z := by
  unfold S_MUL
  rw [Complex.ext_iff]
  constructor <;> simp <;> ring

lemma mk_neg_I_comb (y z : ℂ) (a b : ℝ) :
    (⟨S_MUL y.im a + S_MUL z.im b,
      -(S_MUL y.re a) - S_MUL z.re b⟩ : ℂ)
      = -Complex.I * ((a : ℂ) * y + (b : ℂ) * z) := by
  unfold S_MUL
  rw [Complex.ext_iff]
  constructor <;> simp <;> ring

lemma mk_I_comb (y z : ℂ) (a b : ℝ) :
    (⟨-(S_MUL y.im b) + S_MUL z.im a,
      S_MUL y.re b - S_MUL z.re a⟩ : ℂ)
      = Complex.I * ((b : ℂ) * y - (a : ℂ) * z) := by
  unfold S_MUL
  rw [Complex.ext_iff]
  constructor <;> simp <;> ring

lemma ofReal_re_part (w : ℂ) :
    ((w.re : ℝ) : ℂ) = (w + (starRingEnd ℂ) w) / 2 := by
  rw [Complex.add_conj]
  push_cast
  ring

lemma I_mul_ofReal_im_part (w : ℂ) :
    Complex.I * ((w.im : ℝ) : ℂ) = (w - (starRingEnd ℂ) w) / 2 := by
  rw [Complex.sub_conj]
  push_cast
  ring

lemma tw_access (st : kiss_fft_state) (N L fstride : ℕ)
    (htw : st.twiddles = twiddle N st.inverse) (hN : N = fstride * L)
    (hf : 0 < fstride) (hL : 0 < L) (j : ℕ) :
    st.twiddles (j * fstride) = (twiddle L st.inverse 1) ^ j := by
  rw [htw, twiddle_mul_pow, twiddle_stride N L fstride st.inverse hN hf hL]

lemma pow_decomp (E : ℂ) (q u c m : ℕ) :
    E ^ (q * (u + c * m)) = E ^ (q * u) * (E ^ m) ^ (q * c) := by
  rw [← pow_mul, ← pow_add]
  congr 1
  ring

lemma kf_bfly2_eq (st : kiss_fft_state) (N fstride m : ℕ) (xs : ℕ → ℂ)
    (htw : st.twiddles = twiddle N st.inverse) (hN : N = fstride * (2 * m))
    (hf : 0 < fstride) (hm : 0 < m) (k : ℕ) (hk : k < 2 * m) :
    kf_bfly2 xs fstride st m k
      = dftCombine 2 m (twiddle (2 * m) st.inverse 1) xs k := by
  have hL : 0 < 2 * m := by omega
  have hacc : ∀ j, st.twiddles (j * fstride) = (twiddle (2 * m) st.inverse 1) ^ j :=
    tw_access st N (2 * m) fstride htw hN hf hL
  set E := twiddle (2 * m) st.inverse 1 with hE
  have hW : E ^ m = -1 := by
    rw [hE, twiddle_pow_eq]
    exact twiddle_half_eq m hm st.inverse
  simp only [kf_bfly2, dftCombine, C_MUL, C_ADD, C_SUB, C_FIXDIV]
  rw [if_pos hk]
  rw [Finset.sum_range_succ, Finset.sum_range_succ, Finset.sum_range_zero]
  by_cases hkm : k < m
  · rw [if_pos hkm]
    have hu : k % m = k := Nat.mod_eq_of_lt hkm
    rw [hu, hacc k]
    simp only [zero_add, zero_mul, pow_zero, mul_one, one_mul]
    ring
  · rw [if_neg hkm]
    have hu : k % m = k - m := by
      rw [Nat.mod_eq_sub_mod (le_of_not_lt hkm), Nat.mod_eq_of_lt (by omega)]
    have hksplit : E ^ k = E ^ (k - m) * E ^ m := by
      rw [← pow_add]
      congr 1
      omega
    rw [hu, hacc (k - m)]
    simp only [zero_add, zero_mul, pow_zero, mul_one, one_mul]
    rw [hksplit, hW]
    ring


lemma kf_bfly3_val_mid (xs : ℕ → ℂ) (fstride : ℕ) (st : kiss_fft_state)
    (m k : ℕ) (h1 : m ≤ k) (h2 : k < 2 * m) :
    kf_bfly3 xs fstride st m k
      = xs (k % m)
        - (xs (k % m + m) * st.twiddles ((k % m) * fstride)
           + xs (k % m + 2 * m) * st.twiddles ((k % m) * (fstride * 2))) / 2
        + (Complex.I * (((st.twiddles (fstride * m)).im : ℝ) : ℂ))
            * (xs (k % m + m) * st.twiddles ((k % m) * fstride)
               - xs (k % m + 2 * m) * st.twiddles ((k % m) * (fstride * 2))) := by
  have hk3 : k < 3 * m := by omega
  simp only [kf_bfly3, C_MUL, C_ADD, C_SUB, C_FIXDIV, C_MULBYSCALAR, HALF_OF]
  rw [if_pos hk3, if_neg (by omega : ¬ k < m), if_pos h2]
  rw [Complex.ext_iff]
  constructor <;>
    simp [Complex.div_re, Complex.div_im, Complex.normSq_apply] <;>
    ring

lemma kf_bfly3_val_hi (xs : ℕ → ℂ) (fstride : ℕ) (st : kiss_fft_state)
    (m k : ℕ) (h1 : 2 * m ≤ k) (h2 : k < 3 * m) :
    kf_bfly3 xs fstride st m k
      = xs (k % m)
        - (xs (k % m + m) * st.twiddles ((k % m) * fstride)
           + xs (k % m + 2 * m) * st.twiddles ((k % m) * (fstride * 2))) / 2
        - (Complex.I * (((st.twiddles (fstride * m)).im : ℝ) : ℂ))
            * (xs (k % m + m) * st.twiddles ((k % m) * fstride)
               - xs (k % m + 2 * m) * st.twiddles ((k % m) * (fstride * 2))) := by
  simp only [kf_bfly3, C_MUL, C_ADD, C_SUB, C_FIXDIV, C_MULBYSCALAR, HALF_OF]
  rw [if_pos h2, if_neg (by omega : ¬ k < m), if_neg (by omega : ¬ k < 2 * m)]
  rw [Complex.ext_iff]
  constructor <;>
    simp [Complex.div_re, Complex.div_im, Complex.normSq_apply] <;>
    ring

lemma kf_bfly3_eq (st : kiss_fft_state) (N fstride m : ℕ) (xs : ℕ → ℂ)
    (htw : st.twiddles = twiddle N st.inverse) (hN : N = fstride * (3 * m))
    (hf : 0 < fstride) (hm : 0 < m) (k : ℕ) (hk : k < 3 * m) :
    kf_bfly3 xs fstride st m k
      = dftCombine 3 m (twiddle (3 * m) st.inverse 1) xs k := by
  have hL : 0 < 3 * m := by omega
  have hacc : ∀ j, st.twiddles (j * fstride) = (twiddle (3 * m) st.inverse 1) ^ j :=
    tw_access st N (3 * m) fstride htw hN hf hL
  set E := twiddle (3 * m) st.inverse 1 with hE
  have hWval : E ^ m = twiddle (3 * m) st.inverse m := by
    rw [hE, twiddle_pow_eq]
  have hW3 : (E ^ m) ^ 3 = 1 := by
    rw [hWval]
    exact twiddle_prim_pow 3 m (by omega) st.inverse
  have hWne : E ^ m ≠ 1 := by
    rw [hWval]
    exact twiddle_third_ne_one m hm st.inverse
  have hsum : 1 + E ^ m + (E ^ m) ^ 2 = 0 := third_root_sum hW3 hWne
  have hconj : (starRingEnd ℂ) (E ^ m) = (E ^ m) ^ 2 :=
    conj_of_pow_eq_one (by omega) hW3
  have hepi : st.twiddles (fstride * m) = E ^ m := by
    rw [mul_comm fstride m, hacc m]
  have hacc2 : ∀ u : ℕ, st.twiddles (u * (fstride * 2)) = E ^ (2 * u) := by
    intro u
    rw [show u * (fstride * 2) = (2 * u) * fstride by ring, hacc (2 * u)]
  have hcombine : dftCombine 3 m E xs k
      = xs (k % m) + xs (k % m + m) * E ^ k + xs (k % m + 2 * m) * E ^ (2 * k) := by
    unfold dftCombine
    rw [Finset.sum_range_succ, Finset.sum_range_succ, Finset.sum_range_succ,
      Finset.sum_range_zero]
    simp only [zero_add, zero_mul, pow_zero, mul_one, one_mul, add_zero]
  rw [hcombine]
  by_cases hk1 : k < m
  · have hu : k % m = k := Nat.mod_eq_of_lt hk1
    simp only [kf_bfly3, C_MUL, C_ADD, C_SUB, C_FIXDIV]
    rw [if_pos hk, if_pos hk1, hu, hacc k, hacc2 k]
    ring
  · by_cases hk2 : k < 2 * m
    · rw [kf_bfly3_val_mid xs fstride st m k (le_of_not_lt hk1) hk2]
      have hum : k % m = k - m := by
        rw [Nat.mod_eq_sub_mod (by omega), Nat.mod_eq_of_lt (by omega)]
      set u := k - m with hudef
      have hEk : E ^ k = E ^ u * E ^ m := by
        rw [← pow_add]
        congr 1
        omega
      have hEk2 : E ^ (2 * k) = E ^ (2 * u) * (E ^ m) ^ 2 := by
        rw [← pow_mul, ← pow_add]
        congr 1
        omega
      rw [hum, hepi, hacc u, hacc2 u, hEk, hEk2]
      rw [I_mul_ofReal_im_part, hconj]
      linear_combination
        (-(xs (u + m) * E ^ u + xs (u + 2 * m) * E ^ (2 * u)) / 2) * hsum
    · rw [kf_bfly3_val_hi xs fstride st m k (le_of_not_lt hk2) hk]
      have hum : k % m = k - 2 * m := by
        rw [Nat.mod_eq_sub_mod (by omega), Nat.mod_eq_sub_mod (by omega),
          Nat.mod_eq_of_lt (by omega)]
        omega
      set u := k - 2 * m with hudef
      have hEk : E ^ k = E ^ u * (E ^ m) ^ 2 := by
        rw [← pow_mul, ← pow_add]
        congr 1
        omega
      have hEk2 : E ^ (2 * k) = E ^ (2 * u) * (E ^ m) ^ 4 := by
        rw [← pow_mul, ← pow_add]
        congr 1
        omega
      rw [hum, hepi, hacc u, hacc2 u, hEk, hEk2]
      rw [I_mul_ofReal_im_part, hconj]
      linear_combination
        (-(xs (u + m) * E ^ u + xs (u + 2 * m) * E ^ (2 * u)) / 2) * hsum
        + (-(xs (u + 2 * m) * E ^ (2 * u)) * E ^ m) * hW3

lemma kf_bfly4_val_odd1 (xs : ℕ → ℂ) (fstride : ℕ) (st : kiss_fft_state)
    (m k : ℕ) (h1 : m ≤ k) (h2 : k < 2 * m) :
    kf_bfly4 xs fstride st m k
      = (xs (k % m) - xs (k % m + 2 * m) * st.twiddles ((k % m) * (fstride * 2)))
        + (if st.inverse then Complex.I else -Complex.I)
          * (xs (k % m + m) * st.twiddles ((k % m) * fstride)
             - xs (k % m + 3 * m) * st.twiddles ((k % m) * (fstride * 3))) := by
  have hk4 : k < 4 * m := by omega
  simp only [kf_bfly4, C_MUL, C_ADD, C_SUB, C_FIXDIV]
  rw [if_pos hk4, if_neg (by omega : ¬ k < m), if_pos h2]
  cases hb : st.inverse <;>
    · rw [Complex.ext_iff]
      constructor <;> simp <;> ring

lemma kf_bfly4_val_odd3 (xs : ℕ → ℂ) (fstride : ℕ) (st : kiss_fft_state)
    (m k : ℕ) (h1 : 3 * m ≤ k) (h2 : k < 4 * m) :
    kf_bfly4 xs fstride st m k
      = (xs (k % m) - xs (k % m + 2 * m) * st.twiddles ((k % m) * (fstride * 2)))
        - (if st.inverse then Complex.I else -Complex.I)
          * (xs (k % m + m) * st.twiddles ((k % m) * fstride)
             - xs (k % m + 3 * m) * st.twiddles ((k % m) * (fstride * 3))) := by
  simp only [kf_bfly4, C_MUL, C_ADD, C_SUB, C_FIXDIV]
  rw [if_pos h2, if_neg (by omega : ¬ k < m), if_neg (by omega : ¬ k < 2 * m),
    if_neg (by omega : ¬ k < 3 * m)]
  cases hb : st.inverse <;>
    · rw [Complex.ext_iff]
      constructor <;> simp <;> ring

lemma kf_bfly4_eq (st : kiss_fft_state) (N fstride m : ℕ) (xs : ℕ → ℂ)
    (htw : st.twiddles = twiddle N st.inverse) (hN : N = fstride * (4 * m))
    (hf : 0 < fstride) (hm : 0 < m) (k : ℕ) (hk : k < 4 * m) :
    kf_bfly4 xs fstride st m k
      = dftCombine 4 m (twiddle (4 * m) st.inverse 1) xs k := by
  have hL : 0 < 4 * m := by omega
  have hacc : ∀ j, st.twiddles (j * fstride) = (twiddle (4 * m) st.inverse 1) ^ j :=
    tw_access st N (4 * m) fstride htw hN hf hL
  set E := twiddle (4 * m) st.inverse 1 with hE
  have hW : E ^ m = if st.inverse then Complex.I else -Complex.I := by
    rw [hE, twiddle_pow_eq]
    exact twiddle_quarter_eq m hm st.inverse
  have hacc2 : ∀ u : ℕ, st.twiddles (u * (fstride * 2)) = E ^ (2 * u) := by
    intro u
    rw [show u * (fstride * 2) = (2 * u) * fstride by ring, hacc (2 * u)]
  have hacc3 : ∀ u : ℕ, st.twiddles (u * (fstride * 3)) = E ^ (3 * u) := by
    intro u
    rw [show u * (fstride * 3) = (3 * u) * fstride by ring, hacc (3 * u)]
  have hi2 : Complex.I ^ 2 = -1 := Complex.I_sq
  have hi3 : Complex.I ^ 3 = -Complex.I := by
    rw [pow_succ, hi2]
    ring
  have hi4 : Complex.I ^ 4 = 1 := by
    rw [show (4 : ℕ) = 3 + 1 from rfl, pow_succ, hi3]
    rw [show -Complex.I * Complex.I = -(Complex.I ^ 2) by ring, hi2]
    ring
  have hi6 : Complex.I ^ 6 = -1 := by
    rw [show (6 : ℕ) = 4 + 2 from rfl, pow_add, hi4, hi2]
    ring
  have hi9 : Complex.I ^ 9 = Complex.I := by
    rw [show (9 : ℕ) = 4 + 4 + 1 from rfl, pow_add, pow_add, hi4]
    ring
  have hn2 : (-Complex.I) ^ 2 = -1 := by
    rw [neg_sq]
    exact hi2
  have hn3 : (-Complex.I) ^ 3 = Complex.I := by
    rw [pow_succ, hn2]
    ring
  have hn4 : (-Complex.I) ^ 4 = 1 := by
    rw [show (4 : ℕ) = 3 + 1 from rfl, pow_succ, hn3]
    rw [show Complex.I * -Complex.I = -(Complex.I ^ 2) by ring, hi2]
    ring
  have hn6 : (-Complex.I) ^ 6 = -1 := by
    rw [show (6 : ℕ) = 4 + 2 from rfl, pow_add, hn4, hn2]
    ring
  have hn9 : (-Complex.I) ^ 9 = -Complex.I := by
    rw [show (9 : ℕ) = 4 + 4 + 1 from rfl, pow_add, pow_add, hn4]
    ring
  have hcombine : dftCombine 4 m E xs k
      = xs (k % m) + xs (k % m + m) * E ^ k + xs (k % m + 2 * m) * E ^ (2 * k)
        + xs (k % m + 3 * m) * E ^ (3 * k) := by
    unfold dftCombine
    rw [Finset.sum_range_succ, Finset.sum_range_succ, Finset.sum_range_succ,
      Finset.sum_range_succ, Finset.sum_range_zero]
    simp only [zero_add, zero_mul, pow_zero, mul_one, one_mul, add_zero]
  rw [hcombine]
  by_cases hk1 : k < m
  · have hu : k % m = k := Nat.mod_eq_of_lt hk1
    simp only [kf_bfly4, C_MUL, C_ADD, C_SUB, C_FIXDIV]
    rw [if_pos hk, if_pos hk1, hu, hacc k, hacc2 k, hacc3 k]
    ring
  · by_cases hk2 : k < 2 * m
    · rw [kf_bfly4_val_odd1 xs fstride st m k (le_of_not_lt hk1) hk2]
      have hum : k % m = k - m := by
        rw [Nat.mod_eq_sub_mod (by omega), Nat.mod_eq_of_lt (by omega)]
      set u := k - m with hudef
      have hEk : E ^ k = E ^ u * E ^ m := by
        rw [← pow_add]; congr 1; omega
      have hEk2 : E ^ (2 * k) = E ^ (2 * u) * (E ^ m) ^ 2 := by
        rw [← pow_mul, ← pow_add]; congr 1; omega
      have hEk3 : E ^ (3 * k) = E ^ (3 * u) * (E ^ m) ^ 3 := by
        rw [← pow_mul, ← pow_add]; congr 1; omega
      rw [hum, hacc u, hacc2 u, hacc3 u, hEk, hEk2, hEk3, hW]
      cases hb : st.inverse
      · simp only [Bool.false_eq_true, if_neg, if_false]
        rw [hn2, hn3]
        ring
      · simp only [if_pos, if_true]
        rw [hi2, hi3]
        ring
    · by_cases hk3 : k < 3 * m
      · have hum : k % m = k - 2 * m := by
          rw [Nat.mod_eq_sub_mod (by omega), Nat.mod_eq_sub_mod (by omega),
            Nat.mod_eq_of_lt (by omega)]
          omega
        simp only [kf_bfly4, C_MUL, C_ADD, C_SUB, C_FIXDIV]
        rw [if_pos hk, if_neg (by omega : ¬ k < m), if_neg (by omega : ¬ k < 2 * m),
          if_pos hk3]
        set u := k - 2 * m with hudef
        have hEk : E ^ k = E ^ u * (E ^ m) ^ 2 := by
          rw [← pow_mul, ← pow_add]; congr 1; omega
        have hEk2 : E ^ (2 * k) = E ^ (2 * u) * (E ^ m) ^ 4 := by
          rw [← pow_mul, ← pow_add]; congr 1; omega
        have hEk3 : E ^ (3 * k) = E ^ (3 * u) * (E ^ m) ^ 6 := by
          rw [← pow_mul, ← pow_add]; congr 1; omega
        rw [hum, hacc u, hacc2 u, hacc3 u, hEk, hEk2, hEk3, hW]
        cases hb : st.inverse
        · simp only [Bool.false_eq_true, if_neg, if_false]
          rw [hn2, hn4, hn6]
          ring
        · simp only [if_pos, if_true]
          rw [hi2, hi4, hi6]
          ring
      · rw [kf_bfly4_val_odd3 xs fstride st m k (le_of_not_lt hk3) hk]
        have hum : k % m = k - 3 * m := by
          rw [Nat.mod_eq_sub_mod (by omega), Nat.mod_eq_sub_mod (by omega),
            Nat.mod_eq_sub_mod (by omega), Nat.mod_eq_of_lt (by omega)]
          omega
        set u := k - 3 * m with hudef
        have hEk : E ^ k = E ^ u * (E ^ m) ^ 3 := by
          rw [← pow_mul, ← pow_add]; congr 1; omega
        have hEk2 : E ^ (2 * k) = E ^ (2 * u) * (E ^ m) ^ 6 := by
          rw [← pow_mul, ← pow_add]; congr 1; omega
        have hEk3 : E ^ (3 * k) = E ^ (3 * u) * (E ^ m) ^ 9 := by
          rw [← pow_mul, ← pow_add]; congr 1; omega
        rw [hum, hacc u, hacc2 u, hacc3 u, hEk, hEk2, hEk3, hW]
        cases hb : st.inverse
        · simp only [Bool.false_eq_true, if_neg, if_false]
          rw [hn3, hn6, hn9]
          ring
        · simp only [if_pos, if_true]
          rw [hi3, hi6, hi9]
          ring

lemma kf_bfly5_val0 (xs : ℕ → ℂ) (fstride : ℕ) (st : kiss_fft_state)
    (m k : ℕ) (h2 : k < m) (hm : 0 < m) :
    kf_bfly5 xs fstride st m k
      = xs (k % m)
        + (xs (k % m + m) * st.twiddles ((k % m) * fstride)
           + xs (k % m + 4 * m) * st.twiddles (4 * (k % m) * fstride))
        + (xs (k % m + 2 * m) * st.twiddles (2 * (k % m) * fstride)
           + xs (k % m + 3 * m) * st.twiddles (3 * (k % m) * fstride)) := by
  have hk5 : k < 5 * m := by omega
  simp only [kf_bfly5, C_MUL, C_ADD, C_SUB, C_FIXDIV, S_MUL]
  rw [if_pos hk5, if_pos h2]
  rw [Complex.ext_iff]
  constructor <;>
    simp [Complex.mul_re, Complex.mul_im] <;> ring

lemma kf_bfly5_val1 (xs : ℕ → ℂ) (fstride : ℕ) (st : kiss_fft_state)
    (m k : ℕ) (h1 : m ≤ k) (h2 : k < 2 * m) :
    kf_bfly5 xs fstride st m k
      = xs (k % m)
        + (((st.twiddles (fstride * m)).re : ℝ) : ℂ)
          * (xs (k % m + m) * st.twiddles ((k % m) * fstride)
             + xs (k % m + 4 * m) * st.twiddles (4 * (k % m) * fstride))
        + (((st.twiddles (fstride * (2 * m))).re : ℝ) : ℂ)
          * (xs (k % m + 2 * m) * st.twiddles (2 * (k % m) * fstride)
             + xs (k % m + 3 * m) * st.twiddles (3 * (k % m) * fstride))
        + (Complex.I * (((st.twiddles (fstride * m)).im : ℝ) : ℂ))
          * (xs (k % m + m) * st.twiddles ((k % m) * fstride)
             - xs (k % m + 4 * m) * st.twiddles (4 * (k % m) * fstride))
        + (Complex.I * (((st.twiddles (fstride * (2 * m))).im : ℝ) : ℂ))
          * (xs (k % m + 2 * m) * st.twiddles (2 * (k % m) * fstride)
             - xs (k % m + 3 * m) * st.twiddles (3 * (k % m) * fstride)) := by
  have hk5 : k < 5 * m := by omega
  simp only [kf_bfly5, C_MUL, C_ADD, C_SUB, C_FIXDIV, S_MUL]
  rw [if_pos hk5, if_neg (by omega : ¬ k < m), if_pos h2]
  rw [Complex.ext_iff]
  constructor <;>
    simp [Complex.mul_re, Complex.mul_im] <;> ring

lemma kf_bfly5_val2 (xs : ℕ → ℂ) (fstride : ℕ) (st : kiss_fft_state)
    (m k : ℕ) (h1 : 2 * m ≤ k) (h2 : k < 3 * m) :
    kf_bfly5 xs fstride st m k
      = xs (k % m)
        + (((st.twiddles (fstride * (2 * m))).re : ℝ) : ℂ)
          * (xs (k % m + m) * st.twiddles ((k % m) * fstride)
             + xs (k % m + 4 * m) * st.twiddles (4 * (k % m) * fstride))
        + (((st.twiddles (fstride * m)).re : ℝ) : ℂ)
          * (xs (k % m + 2 * m) * st.twiddles (2 * (k % m) * fstride)
             + xs (k % m + 3 * m) * st.twiddles (3 * (k % m) * fstride))
        + (Complex.I * (((st.twiddles (fstride * (2 * m))).im : ℝ) : ℂ))
          * (xs (k % m + m) * st.twiddles ((k % m) * fstride)
             - xs (k % m + 4 * m) * st.twiddles (4 * (k % m) * fstride))
        - (Complex.I * (((st.twiddles (fstride * m)).im : ℝ) : ℂ))
          * (xs (k % m + 2 * m) * st.twiddles (2 * (k % m) * fstride)
             - xs (k % m + 3 * m) * st.twiddles (3 * (k % m) * fstride)) := by
  have hk5 : k < 5 * m := by omega
  simp only [kf_bfly5, C_MUL, C_ADD, C_SUB, C_FIXDIV, S_MUL]
  rw [if_pos hk5, if_neg (by omega : ¬ k < m), if_neg (by omega : ¬ k < 2 * m),
    if_pos h2]
  rw [Complex.ext_iff]
  constructor <;>
    simp [Complex.mul_re, Complex.mul_im] <;> ring

lemma kf_bfly5_val3 (xs : ℕ → ℂ) (fstride : ℕ) (st : kiss_fft_state)
    (m k : ℕ) (h1 : 3 * m ≤ k) (h2 : k < 4 * m) :
    kf_bfly5 xs fstride st m k
      = xs (k % m)
        + (((st.twiddles (fstride * (2 * m))).re : ℝ) : ℂ)
          * (xs (k % m + m) * st.twiddles ((k % m) * fstride)
             + xs (k % m + 4 * m) * st.twiddles (4 * (k % m) * fstride))
        + (((st.twiddles (fstride * m)).re : ℝ) : ℂ)
          * (xs (k % m + 2 * m) * st.twiddles (2 * (k % m) * fstride)
             + xs (k % m + 3 * m) * st.twiddles (3 * (k % m) * fstride))
        - (Complex.I * (((st.twiddles (fstride * (2 * m))).im : ℝ) : ℂ))
          * (xs (k % m + m) * st.twiddles ((k % m) * fstride)
             - xs (k % m + 4 * m) * st.twiddles (4 * (k % m) * fstride))
        + (Complex.I * (((st.twiddles (fstride * m)).im : ℝ) : ℂ))
          * (xs (k % m + 2 * m) * st.twiddles (2 * (k % m) * fstride)
             - xs (k % m + 3 * m) * st.twiddles (3 * (k % m) * fstride)) := by
  have hk5 : k < 5 * m := by omega
  simp only [kf_bfly5, C_MUL, C_ADD, C_SUB, C_FIXDIV, S_MUL]
  rw [if_pos hk5, if_neg (by omega : ¬ k < m), if_neg (by omega : ¬ k < 2 * m),
    if_neg (by omega : ¬ k < 3 * m), if_pos h2]
  rw [Complex.ext_iff]
  constructor <;>
    simp [Complex.mul_re, Complex.mul_im] <;> ring

lemma kf_bfly5_val4 (xs : ℕ → ℂ) (fstride : ℕ) (st : kiss_fft_state)
    (m k : ℕ) (h1 : 4 * m ≤ k) (h2 : k < 5 * m) :
    kf_bfly5 xs fstride st m k
      = xs (k % m)
        + (((st.twiddles (fstride * m)).re : ℝ) : ℂ)
          * (xs (k % m + m) * st.twiddles ((k % m) * fstride)
             + xs (k % m + 4 * m) * st.twiddles (4 * (k % m) * fstride))
        + (((st.twiddles (fstride * (2 * m))).re : ℝ) : ℂ)
          * (xs (k % m + 2 * m) * st.twiddles (2 * (k % m) * fstride)
             + xs (k % m + 3 * m) * st.twiddles (3 * (k % m) * fstride))
        - (Complex.I * (((st.twiddles (fstride * m)).im : ℝ) : ℂ))
          * (xs (k % m + m) * st.twiddles ((k % m) * fstride)
             - xs (k % m + 4 * m) * st.twiddles (4 * (k % m) * fstride))
        - (Complex.I * (((st.twiddles (fstride * (2 * m))).im : ℝ) : ℂ))
          * (xs (k % m + 2 * m) * st.twiddles (2 * (k % m) * fstride)
             - xs (k % m + 3 * m) * st.twiddles (3 * (k % m) * fstride)) := by
  simp only [kf_bfly5, C_MUL, C_ADD, C_SUB, C_FIXDIV, S_MUL]
  rw [if_pos h2, if_neg (by omega : ¬ k < m), if_neg (by omega : ¬ k < 2 * m),
    if_neg (by omega : ¬ k < 3 * m), if_neg (by omega : ¬ k < 4 * m)]
  rw [Complex.ext_iff]
  constructor <;>
    simp [Complex.mul_re, Complex.mul_im] <;> ring

lemma kf_bfly5_eq (st : kiss_fft_state) (N fstride m : ℕ) (xs : ℕ → ℂ)
    (htw : st.twiddles = twiddle N st.inverse) (hN : N = fstride * (5 * m))
    (hf : 0 < fstride) (hm : 0 < m) (k : ℕ) (hk : k < 5 * m) :
    kf_bfly5 xs fstride st m k
      = dftCombine 5 m (twiddle (5 * m) st.inverse 1) xs k := by
  have hL : 0 < 5 * m := by omega
  have hacc : ∀ j, st.twiddles (j * fstride) = (twiddle (5 * m) st.inverse 1) ^ j :=
    tw_access st N (5 * m) fstride htw hN hf hL
  set E := twiddle (5 * m) st.inverse 1 with hE
  have hWval : E ^ m = twiddle (5 * m) st.inverse m := by
    rw [hE, twiddle_pow_eq]
  have hW5 : (E ^ m) ^ 5 = 1 := by
    rw [hWval]
    exact twiddle_prim_pow 5 m (by omega) st.inverse
  have hconj : (starRingEnd ℂ) (E ^ m) = (E ^ m) ^ 4 :=
    conj_of_pow_eq_one (by omega) hW5
  have hconjsq : (starRingEnd ℂ) ((E ^ m) ^ 2) = ((E ^ m) ^ 4) ^ 2 := by
    have hmp : (starRingEnd ℂ) ((E ^ m) ^ 2) = ((starRingEnd ℂ) (E ^ m)) ^ 2 :=
      map_pow (starRingEnd ℂ) (E ^ m) 2
    rw [hmp, hconj]
  have hya : st.twiddles (fstride * m) = E ^ m := by
    rw [mul_comm fstride m, hacc m]
  have hyb : st.twiddles (fstride * (2 * m)) = (E ^ m) ^ 2 := by
    rw [mul_comm fstride (2 * m), hacc (2 * m),
      show 2 * m = m * 2 by ring, pow_mul]
  have hcombine : dftCombine 5 m E xs k
      = xs (k % m) + xs (k % m + m) * E ^ k + xs (k % m + 2 * m) * E ^ (2 * k)
        + xs (k % m + 3 * m) * E ^ (3 * k) + xs (k % m + 4 * m) * E ^ (4 * k) := by
    unfold dftCombine
    rw [Finset.sum_range_succ, Finset.sum_range_succ, Finset.sum_range_succ,
      Finset.sum_range_succ, Finset.sum_range_succ, Finset.sum_range_zero]
    simp only [zero_add, zero_mul, pow_zero, mul_one, one_mul, add_zero]
  rw [hcombine]
  by_cases hk1 : k < m
  · have hu : k % m = k := Nat.mod_eq_of_lt hk1
    rw [kf_bfly5_val0 xs fstride st m k hk1 hm, hu, hacc k, hacc (2 * k),
      hacc (3 * k), hacc (4 * k)]
    ring
  · by_cases hk2 : k < 2 * m
    · rw [kf_bfly5_val1 xs fstride st m k (le_of_not_lt hk1) hk2]
      have hum : k % m = k - m := by
        rw [Nat.mod_eq_sub_mod (by omega), Nat.mod_eq_of_lt (by omega)]
      set u := k - m with hudef
      have hEk1 : E ^ k = E ^ u * (E ^ m) ^ 1 := by
        rw [← pow_mul, ← pow_add]; congr 1; omega
      have hEk2 : E ^ (2 * k) = E ^ (2 * u) * (E ^ m) ^ 2 := by
        rw [← pow_mul, ← pow_add]; congr 1; omega
      have hEk3 : E ^ (3 * k) = E ^ (3 * u) * (E ^ m) ^ 3 := by
        rw [← pow_mul, ← pow_add]; congr 1; omega
      have hEk4 : E ^ (4 * k) = E ^ (4 * u) * (E ^ m) ^ 4 := by
        rw [← pow_mul, ← pow_add]; congr 1; omega
      rw [hum, hya, hyb, hacc u, hacc (2 * u), hacc (3 * u), hacc (4 * u),
        hEk1, hEk2, hEk3, hEk4]
      rw [ofReal_re_part (E ^ m), ofReal_re_part ((E ^ m) ^ 2),
        I_mul_ofReal_im_part (E ^ m), I_mul_ofReal_im_part ((E ^ m) ^ 2),
        hconjsq, hconj]
      linear_combination
        (xs (u + 3 * m) * E ^ (3 * u) * (E ^ m) ^ 3) * hW5
    · by_cases hk3 : k < 3 * m
      · rw [kf_bfly5_val2 xs fstride st m k (le_of_not_lt hk2) hk3]
        have hum : k % m = k - 2 * m := by
          rw [Nat.mod_eq_sub_mod (by omega), Nat.mod_eq_sub_mod (by omega),
            Nat.mod_eq_of_lt (by omega)]
          omega
        set u := k - 2 * m with hudef
        have hEk1 : E ^ k = E ^ u * (E ^ m) ^ 2 := by
          rw [← pow_mul, ← pow_add]; congr 1; omega
        have hEk2 : E ^ (2 * k) = E ^ (2 * u) * (E ^ m) ^ 4 := by
          rw [← pow_mul, ← pow_add]; congr 1; omega
        have hEk3 : E ^ (3 * k) = E ^ (3 * u) * (E ^ m) ^ 6 := by
          rw [← pow_mul, ← pow_add]; congr 1; omega
        have hEk4 : E ^ (4 * k) = E ^ (4 * u) * (E ^ m) ^ 8 := by
          rw [← pow_mul, ← pow_add]; congr 1; omega
        rw [hum, hya, hyb, hacc u, hacc (2 * u), hacc (3 * u), hacc (4 * u),
          hEk1, hEk2, hEk3, hEk4]
        rw [ofReal_re_part (E ^ m), ofReal_re_part ((E ^ m) ^ 2),
          I_mul_ofReal_im_part (E ^ m), I_mul_ofReal_im_part ((E ^ m) ^ 2),
          hconjsq, hconj]
        linear_combination
          (-(xs (u + 3 * m) * E ^ (3 * u)) * E ^ m) * hW5
      · by_cases hk4 : k < 4 * m
        · rw [kf_bfly5_val3 xs fstride st m k (le_of_not_lt hk3) hk4]
          have hum : k % m = k - 3 * m := by
            rw [Nat.mod_eq_sub_mod (by omega), Nat.mod_eq_sub_mod (by omega),
              Nat.mod_eq_sub_mod (by omega), Nat.mod_eq_of_lt (by omega)]
            omega
          set u := k - 3 * m with hudef
          have hEk1 : E ^ k = E ^ u * (E ^ m) ^ 3 := by
            rw [← pow_mul, ← pow_add]; congr 1; omega
          have hEk2 : E ^ (2 * k) = E ^ (2 * u) * (E ^ m) ^ 6 := by
            rw [← pow_mul, ← pow_add]; congr 1; omega
          have hEk3 : E ^ (3 * k) = E ^ (3 * u) * (E ^ m) ^ 9 := by
            rw [← pow_mul, ← pow_add]; congr 1; omega
          have hEk4 : E ^ (4 * k) = E ^ (4 * u) * (E ^ m) ^ 12 := by
            rw [← pow_mul, ← pow_add]; congr 1; omega
          rw [hum, hya, hyb, hacc u, hacc (2 * u), hacc (3 * u), hacc (4 * u),
            hEk1, hEk2, hEk3, hEk4]
          rw [ofReal_re_part (E ^ m), ofReal_re_part ((E ^ m) ^ 2),
            I_mul_ofReal_im_part (E ^ m), I_mul_ofReal_im_part ((E ^ m) ^ 2),
            hconjsq, hconj]
          linear_combination
            (xs (u + m) * E ^ u * (E ^ m) ^ 3
              - xs (u + 2 * m) * E ^ (2 * u) * E ^ m
              - xs (u + 3 * m) * E ^ (3 * u) * (E ^ m) ^ 4
              - xs (u + 4 * m) * E ^ (4 * u) * (E ^ m) ^ 2 * ((E ^ m) ^ 5 + 1))
            * hW5
        · rw [kf_bfly5_val4 xs fstride st m k (le_of_not_lt hk4) hk]
          have hum : k % m = k - 4 * m := by
            rw [Nat.mod_eq_sub_mod (by omega), Nat.mod_eq_sub_mod (by omega),
              Nat.mod_eq_sub_mod (by omega), Nat.mod_eq_sub_mod (by omega),
              Nat.mod_eq_of_lt (by omega)]
            omega
          set u := k - 4 * m with hudef
          have hEk1 : E ^ k = E ^ u * (E ^ m) ^ 4 := by
            rw [← pow_mul, ← pow_add]; congr 1; omega
          have hEk2 : E ^ (2 * k) = E ^ (2 * u) * (E ^ m) ^ 8 := by
            rw [← pow_mul, ← pow_add]; congr 1; omega
          have hEk3 : E ^ (3 * k) = E ^ (3 * u) * (E ^ m) ^ 12 := by
            rw [← pow_mul, ← pow_add]; congr 1; omega
          have hEk4 : E ^ (4 * k) = E ^ (4 * u) * (E ^ m) ^ 16 := by
            rw [← pow_mul, ← pow_add]; congr 1; omega
          rw [hum, hya, hyb, hacc u, hacc (2 * u), hacc (3 * u), hacc (4 * u),
            hEk1, hEk2, hEk3, hEk4]
          rw [ofReal_re_part (E ^ m), ofReal_re_part ((E ^ m) ^ 2),
            I_mul_ofReal_im_part (E ^ m), I_mul_ofReal_im_part ((E ^ m) ^ 2),
            hconjsq, hconj]
          linear_combination
            (-(xs (u + 3 * m) * E ^ (3 * u)) * (E ^ m) ^ 2 * ((E ^ m) ^ 5 + 1)
              - xs (u + 4 * m) * E ^ (4 * u) * E ^ m
                * ((E ^ m) ^ 10 + (E ^ m) ^ 5 + 1))
            * hW5

lemma kfTwidx_eq (Norig fstride k : ℕ) (hk : fstride * k < Norig) (q : ℕ) :
    kfTwidx Norig fstride k q = (fstride * k * q) % Norig := by
  have hN : 0 < Norig := by omega
  induction q with
  | zero => simp [kfTwidx]
  | succ q ih =>
    have ht : (fstride * k * q) % Norig < Norig := Nat.mod_lt _ hN
    simp only [kfTwidx, kfTwidxNext, ih]
    have hexp : fstride * k * (q + 1) = fstride * k * q + fstride * k := by ring
    rw [hexp, Nat.add_mod, Nat.mod_eq_of_lt hk]
    by_cases hc : Norig ≤ (fstride * k * q) % Norig + fstride * k
    · rw [if_pos hc]
      have hs : ((fstride * k * q) % Norig + fstride * k) % Norig
          = (fstride * k * q) % Norig + fstride * k - Norig := by
        rw [Nat.mod_eq_sub_mod hc, Nat.mod_eq_of_lt (by omega)]
      omega
    · rw [if_neg hc,
        Nat.mod_eq_of_lt
          (by omega : (fstride * k * q) % Norig + fstride * k < Norig)]

lemma kfTwidx_lt (Norig fstride k : ℕ) (hk : fstride * k < Norig) (q : ℕ) :
    kfTwidx Norig fstride k q < Norig := by
  rw [kfTwidx_eq Norig fstride k hk q]
  exact Nat.mod_lt _ (by omega)

lemma generic_fold_spec (tw g : ℕ → ℂ) (Norig fstride k : ℕ) (j : ℕ) :
    (List.range j).foldl
      (fun (s : ℕ × ℂ) q =>
        (kfTwidxNext Norig fstride k s.1,
         C_ADD s.2 (C_MUL (g (q + 1)) (tw (kfTwidxNext Norig fstride k s.1)))))
      (0, g 0)
      = (kfTwidx Norig fstride k j,
         g 0 + ∑ q in Finset.range j,
           g (q + 1) * tw (kfTwidx Norig fstride k (q + 1))) := by
  induction j with
  | zero => simp [kfTwidx]
  | succ j ih =>
    rw [List.range_succ, List.foldl_append, ih]
    simp only [List.foldl_cons, List.foldl_nil, C_ADD, C_MUL]
    rw [Finset.sum_range_succ, Prod.mk.injEq]
    constructor
    · rfl
    · simp only [kfTwidx]
      ring

lemma kf_bfly_generic_eq (st : kiss_fft_state) (N fstride m p : ℕ) (xs : ℕ → ℂ)
    (htw : st.twiddles = twiddle N st.inverse) (hnfft : st.nfft = N)
    (hN : N = fstride * (p * m)) (hf : 0 < fstride) (hm : 0 < m) (hp : 0 < p)
    (k : ℕ) (hk : k < p * m) :
    kf_bfly_generic xs fstride st m p k
      = dftCombine p m (twiddle (p * m) st.inverse 1) xs k := by
  have hpm : 0 < p * m := Nat.mul_pos hp hm
  have hNpos : 0 < N := by
    rw [hN]
    exact Nat.mul_pos hf hpm
  have hfk : fstride * k < N := by
    rw [hN]
    exact (mul_lt_mul_left hf).mpr hk
  set E := twiddle (p * m) st.inverse 1 with hE
  have htwentry : ∀ q : ℕ,
      twiddle N st.inverse (kfTwidx N fstride k q) = E ^ (k * q) := by
    intro q
    rw [kfTwidx_eq N fstride k hfk q, twiddle_mod N hNpos.ne' st.inverse,
      show fstride * k * q = (k * q) * fstride by ring, twiddle_mul_pow,
      twiddle_stride N (p * m) fstride st.inverse hN hf hpm]
  simp only [kf_bfly_generic, hnfft, htw, C_FIXDIV]
  rw [if_pos hk]
  rw [generic_fold_spec (twiddle N st.inverse) (fun q1 => xs (k % m + q1 * m))
      N fstride k (p - 1)]
  simp only
  have hsum : ∑ q in Finset.range (p - 1),
        xs (k % m + (q + 1) * m)
          * twiddle N st.inverse (kfTwidx N fstride k (q + 1))
      = ∑ q in Finset.range (p - 1), xs (k % m + (q + 1) * m) * E ^ ((q + 1) * k) := by
    apply Finset.sum_congr rfl
    intro q _
    rw [htwentry (q + 1), mul_comm k (q + 1)]
  rw [hsum]
  unfold dftCombine
  conv_rhs => rw [show p = (p - 1) + 1 by omega]
  rw [Finset.sum_range_succ']
  simp only [zero_mul, pow_zero, mul_one, add_zero]
  ring

lemma kf_bfly_eq (st : kiss_fft_state) (N fstride m p : ℕ) (xs : ℕ → ℂ)
    (htw : st.twiddles = twiddle N st.inverse) (hnfft : st.nfft = N)
    (hN : N = fstride * (p * m)) (hf : 0 < fstride) (hm : 0 < m) (hp : 0 < p)
    (k : ℕ) (hk : k < p * m) :
    kf_bfly st p xs fstride m k
      = dftCombine p m (twiddle (p * m) st.inverse 1) xs k := by
  unfold kf_bfly
  by_cases h2 : p = 2
  · subst h2
    rw [if_pos rfl]
    exact kf_bfly2_eq st N fstride m xs htw hN hf hm k hk
  · rw [if_neg h2]
    by_cases h3 : p = 3
    · subst h3
      rw [if_pos rfl]
      exact kf_bfly3_eq st N fstride m xs htw hN hf hm k hk
    · rw [if_neg h3]
      by_cases h4 : p = 4
      · subst h4
        rw [if_pos rfl]
        exact kf_bfly4_eq st N fstride m xs htw hN hf hm k hk
      · rw [if_neg h4]
        by_cases h5 : p = 5
        · subst h5
          rw [if_pos rfl]
          exact kf_bfly5_eq st N fstride m xs htw hN hf hm k hk
        · rw [if_neg h5]
          exact kf_bfly_generic_eq st N fstride m p xs htw hnfft hN hf hm hp k hk

lemma sum_range_mul_split (f : ℕ → ℂ) (p m : ℕ) (hp : 0 < p) :
    ∑ l in Finset.range (p * m), f l
      = ∑ q in Finset.range p, ∑ j in Finset.range m, f (j * p + q) := by
  rw [← Finset.sum_product']
  apply Finset.sum_nbij' (fun l => (l % p, l / p)) (fun qj => qj.2 * p + qj.1)
  · intro l hl
    rw [Finset.mem_range] at hl
    rw [Finset.mem_product, Finset.mem_range, Finset.mem_range]
    exact ⟨Nat.mod_lt _ hp, Nat.div_lt_of_lt_mul hl⟩
  · intro qj hqj
    rw [Finset.mem_product, Finset.mem_range, Finset.mem_range] at hqj
    rw [Finset.mem_range]
    have h1 := hqj.1
    have h2 := hqj.2
    calc qj.2 * p + qj.1 < qj.2 * p + p := by omega
    _ = (qj.2 + 1) * p := by ring
    _ ≤ m * p := Nat.mul_le_mul_right p (by omega)
    _ = p * m := by ring
  · intro l _
    simp only
    rw [mul_comm]
    exact Nat.div_add_mod l p
  · intro qj hqj
    rw [Finset.mem_product, Finset.mem_range, Finset.mem_range] at hqj
    have h1 := hqj.1
    rw [Prod.ext_iff]
    constructor
    · simp only
      exact Nat.mul_add_mod_of_lt h1
    · simp only
      rw [mul_comm qj.2 p, Nat.mul_add_div hp, Nat.div_eq_of_lt h1, add_zero]
  · intro l _
    simp only
    rw [mul_comm, Nat.div_add_mod l p]

lemma dft_split (p m : ℕ) (hp : 0 < p) (hm : 0 < m) (b : Bool) (x : ℕ → ℂ)
    (k : ℕ) :
    dft (p * m) b x k
      = ∑ q in Finset.range p,
          dft m b (fun j => x (j * p + q)) (k % m)
            * (twiddle (p * m) b 1) ^ (q * k) := by
  unfold dft
  rw [sum_range_mul_split (fun l => x l * (twiddle (p * m) b 1) ^ (l * k)) p m hp]
  apply Finset.sum_congr rfl
  intro q _
  rw [Finset.sum_mul]
  apply Finset.sum_congr rfl
  intro j _
  rw [mul_assoc]
  congr 1
  have hE : (twiddle (p * m) b 1) ^ ((j * p + q) * k)
      = (twiddle (p * m) b 1) ^ (p * (j * k))
        * (twiddle (p * m) b 1) ^ (q * k) := by
    rw [← pow_add]
    congr 1
    ring
  rw [hE]
  congr 1
  have hEp : (twiddle (p * m) b 1) ^ p = twiddle m b 1 := by
    rw [twiddle_pow_eq]
    exact twiddle_stride (p * m) m p b rfl hp hm
  rw [pow_mul, hEp]
  have hsplit2 : (twiddle m b 1) ^ (j * k)
      = (twiddle m b 1) ^ (j * (k % m)) * ((twiddle m b 1) ^ m) ^ (j * (k / m)) := by
    rw [← pow_mul, ← pow_add]
    congr 1
    conv_lhs => rw [show k = m * (k / m) + k % m from (Nat.div_add_mod k m).symm]
    ring
  rw [hsplit2, twiddle_one_pow_self m hm.ne' b, one_pow, mul_one]

lemma kf_work_eq_aux (st : kiss_fft_state) :
    ∀ (len : ℕ) (fs : List ℕ), fs.length ≤ len →
    ∀ (n : ℕ) (f : ℕ → ℂ) (fstride in_stride : ℕ),
      factChainB n fs = true → 1 ≤ n →
      st.twiddles = twiddle st.nfft st.inverse →
      st.nfft = fstride * n → 0 < fstride →
      ∀ k, k < n →
        kf_work st fs f fstride in_stride k
          = dft n st.inverse (fun j => f (j * (fstride * in_stride))) k := by
  intro len
  induction len with
  | zero =>
    intro fs hlen n f fstride in_stride hchain hn htw hnfft hf k hk
    match fs with
    | [] => simp [factChainB] at hchain
  | succ len ih =>
    intro fs hlen n f fstride in_stride hchain hn htw hnfft hf k hk
    match fs with
    | [] => simp [factChainB] at hchain
    | [p] => simp [factChainB] at hchain
    | p :: m :: rest =>
      rcases Nat.lt_or_ge 1 m with hm2 | hm1
      · -- recursive case: m ≥ 2
        simp only [factChainB, if_neg (by omega : ¬ m ≤ 1), Bool.and_eq_true,
          beq_iff_eq] at hchain
        obtain ⟨hpm, hchain2⟩ := hchain
        have hm0 : 0 < m := by omega
        have hp0 : 0 < p := by
          rcases Nat.eq_zero_or_pos p with h | h
          · rw [h] at hpm
            omega
          · exact h
        simp only [kf_work, if_neg (by omega : ¬ m = 1)]
        rw [kf_bfly_eq st st.nfft fstride m p _ htw rfl
          (by rw [hnfft, hpm]) hf hm0 hp0 k (by omega)]
        rw [show dft n st.inverse (fun j => f (j * (fstride * in_stride))) k
            = dft (p * m) st.inverse (fun j => f (j * (fstride * in_stride))) k
          from by rw [hpm]]
        rw [dft_split p m hp0 hm0 st.inverse _ k]
        unfold dftCombine
        apply Finset.sum_congr rfl
        intro q hq
        rw [Finset.mem_range] at hq
        congr 1
        have hdiv : (k % m + q * m) / m = q := by
          rw [Nat.add_mul_div_right _ _ hm0,
            Nat.div_eq_of_lt (Nat.mod_lt _ hm0), zero_add]
        have hmod : (k % m + q * m) % m = k % m := by
          rw [Nat.add_mul_mod_self_right,
            Nat.mod_eq_of_lt (Nat.mod_lt _ hm0)]
        simp only []
        rw [hdiv, hmod]
        rw [ih rest (by simp at hlen; omega) m
          (fun i => f (i + q * (fstride * in_stride))) (fstride * p) in_stride
          hchain2 (by omega) htw (by rw [hnfft, ← hpm]; ring) (by positivity)
          (k % m) (Nat.mod_lt _ hm0)]
        congr 1
        funext j
        congr 1
        ring
      · -- leaf case: m = 1
        simp only [factChainB, if_pos hm1, Bool.and_eq_true, beq_iff_eq,
          List.isEmpty_iff] at hchain
        obtain ⟨hpm, hm1e, hrest⟩ := hchain
        subst hm1e
        have hpn : p = n := by omega
        simp only [kf_work, if_pos rfl]
        rw [kf_bfly_eq st st.nfft fstride 1 p _ htw rfl
          (by rw [hnfft, hpn, mul_one]) hf (by omega) (by omega) k (by omega)]
        unfold dftCombine dft
        apply Finset.sum_congr
        · rw [hpn]
        · intro j _
          simp [Nat.mod_one, mul_one, zero_add, hpn]

lemma kf_work_eq (st : kiss_fft_state) (fs : List ℕ) (n : ℕ) (f : ℕ → ℂ)
    (fstride in_stride : ℕ) (hchain : factChainB n fs = true) (hn : 1 ≤ n)
    (htw : st.twiddles = twiddle st.nfft st.inverse)
    (hnfft : st.nfft = fstride * n) (hf : 0 < fstride) (k : ℕ) (hk : k < n) :
    kf_work st fs f fstride in_stride k
      = dft n st.inverse (fun j => f (j * (fstride * in_stride))) k :=
  kf_work_eq_aux st fs.length fs (le_refl _) n f fstride in_stride hchain hn
    htw hnfft hf k hk

lemma kfFindP_self (n fsqrt p : ℕ) (h : n % p = 0) :
    ∀ fuel, kfFindP n fsqrt fuel p = p := by
  intro fuel
  cases fuel with
  | zero => rfl
  | succ fuel => simp [kfFindP, h]

lemma dvd_mod_eq_zero {q n : ℕ} (hq : 0 < q) (h : q ∣ n) : n % q = 0 :=
  Nat.dvd_iff_mod_eq_zero.mp h

lemma prime_of_no_small_divisors {n : ℕ} (hn : 2 ≤ n)
    (h : ∀ q, Nat.Prime q → q * q ≤ n → ¬ (q ∣ n)) : Nat.Prime n := by
  by_contra hnp
  have hmf : Nat.minFac n ∣ n := Nat.minFac_dvd n
  have hmfp : Nat.Prime (Nat.minFac n) := Nat.minFac_prime (by omega)
  have hsq : Nat.minFac n ^ 2 ≤ n := Nat.minFac_sq_le_self (by omega) hnp
  exact h (Nat.minFac n) hmfp (by nlinarith [hsq]) hmf

lemma kfFindP_spec :
    ∀ (fuel n fsqrt p : ℕ), 2 ≤ n → Nat.sqrt n ≤ fsqrt →
    2 ≤ p → (p = 4 ∨ p ≤ fsqrt) →
    (p = 4 → fsqrt + 2 ≤ fuel) → (p ≠ 4 → fsqrt + 3 ≤ fuel + p) →
    (p = 4 ∨ p = 2 ∨ p % 2 = 1) →
    (p = 4 ∨ ∀ q, Nat.Prime q → q < p → ¬ (q ∣ n)) →
    n % kfFindP n fsqrt fuel p = 0 ∧ 2 ≤ kfFindP n fsqrt fuel p ∧
    (kfFindP n fsqrt fuel p = 4 ∨ kfFindP n fsqrt fuel p ≤ fsqrt
      ∨ kfFindP n fsqrt fuel p = n) ∧
    (kfFindP n fsqrt fuel p = 4
      ∨ ∀ q, Nat.Prime q → q < kfFindP n fsqrt fuel p → ¬ (q ∣ n)) := by
  intro fuel
  induction fuel with
  | zero =>
    intro n fsqrt p hn hsq hp2 hpform hf4 hfno hpar hinv
    rcases hpform with h4 | hle
    · have := hf4 h4
      omega
    · have := hfno (by omega : p ≠ 4)
      omega
  | succ fuel ih =>
    intro n fsqrt p hn hsq hp2 hpform hf4 hfno hpar hinv
    by_cases hdvd : n % p = 0
    · rw [kfFindP_self n fsqrt p hdvd]
      refine ⟨hdvd, hp2, ?_, hinv⟩
      rcases hpform with h4 | hle
      · exact Or.inl h4
      · exact Or.inr (Or.inl hle)
    · -- advance the trial
      have hstep : ∀ q, Nat.Prime q → q < kfNextP p → ¬ (q ∣ n) := by
        intro q hq hql hqd
        have hq2 := hq.two_le
        by_cases h4 : p = 4
        · subst h4
          simp [kfNextP] at hql
          omega
        · by_cases h2 : p = 2
          · subst h2
            simp [kfNextP] at hql
            have hq2' : q = 2 := by omega
            subst hq2'
            exact hdvd (dvd_mod_eq_zero (by omega) hqd)
          · have hnext : kfNextP p = p + 2 := by
              simp [kfNextP, h4, h2]
            rw [hnext] at hql
            have hodd : p % 2 = 1 := by
              rcases hpar with h | h | h
              · exact absurd h h4
              · exact absurd h h2
              · exact h
            rcases Nat.lt_or_ge q p with hlt | hge
            · rcases hinv with h | h
              · exact absurd h h4
              · exact h q hq hlt hqd
            · by_cases hqp : q = p
              · subst hqp
                exact hdvd (dvd_mod_eq_zero (by omega) hqd)
              · -- q = p + 1, even and > 2: not prime
                have hq1 : q = p + 1 := by omega
                rcases hq.eq_two_or_odd with h | h
                · omega
                · omega
      simp only [kfFindP, if_neg hdvd]
      by_cases hclamp : fsqrt < kfNextP p
      · rw [if_pos hclamp, kfFindP_self n fsqrt n (Nat.mod_self n) fuel]
        have hnprime : Nat.Prime n := by
          apply prime_of_no_small_divisors hn
          intro q hq hqsq
          apply hstep q hq
          have hqs : q ≤ Nat.sqrt n := Nat.le_sqrt.mpr hqsq
          omega
        refine ⟨Nat.mod_self n, hn, Or.inr (Or.inr rfl), Or.inr ?_⟩
        intro q hq hql hqd
        rcases (Nat.Prime.eq_one_or_self_of_dvd hnprime q hqd) with h | h
        · exact absurd h hq.one_lt.ne'
        · omega
      · rw [if_neg hclamp]
        have hnext2 : 2 ≤ kfNextP p := by
          by_cases h4 : p = 4
          · simp [kfNextP, h4]
          · by_cases h2 : p = 2
            · simp [kfNextP, h4, h2]
            · rw [show kfNextP p = p + 2 by simp [kfNextP, h4, h2]]
              omega
        have hnext4 : kfNextP p ≠ 4 := by
          by_cases h4 : p = 4
          · simp [kfNextP, h4]
          · by_cases h2 : p = 2
            · simp [kfNextP, h4, h2]
            · rw [show kfNextP p = p + 2 by simp [kfNextP, h4, h2]]
              rcases hpar with h | h | h
              · exact absurd h h4
              · exact absurd h h2
              · omega
        have hnextpar : kfNextP p = 4 ∨ kfNextP p = 2 ∨ kfNextP p % 2 = 1 := by
          by_cases h4 : p = 4
          · simp [kfNextP, h4]
          · by_cases h2 : p = 2
            · simp [kfNextP, h4, h2]
            · have : kfNextP p = p + 2 := by simp [kfNextP, h4, h2]
              rcases hpar with h | h | h
              · exact absurd h h4
              · exact absurd h h2
              · right; right; omega
        have hfuel2 : kfNextP p ≠ 4 → fsqrt + 3 ≤ fuel + kfNextP p := by
          intro _
          by_cases h4 : p = 4
          · have := hf4 h4
            have : kfNextP p = 2 := by simp [kfNextP, h4]
            omega
          · have := hfno h4
            by_cases h2 : p = 2
            · have : kfNextP p = 3 := by simp [kfNextP, h4, h2]
              omega
            · have : kfNextP p = p + 2 := by simp [kfNextP, h4, h2]
              omega
        exact ih n fsqrt (kfNextP p) hn hsq hnext2
          (Or.inr (le_of_not_lt hclamp))
          (fun h => absurd h hnext4) hfuel2 hnextpar (Or.inr hstep)

lemma minFac_radix_prime {r n : ℕ} (hr2 : 2 ≤ r) (hrd : r ∣ n)
    (hinv : ∀ q, Nat.Prime q → q < r → ¬ (q ∣ n)) : Nat.Prime r := by
  have hmf : Nat.minFac r ∣ r := Nat.minFac_dvd r
  have hmfp : Nat.Prime (Nat.minFac r) := Nat.minFac_prime (by omega)
  have hmfr : Nat.minFac r ≤ r := Nat.minFac_le (by omega)
  rcases Nat.lt_or_ge (Nat.minFac r) r with hlt | hge
  · exact absurd (hmf.trans hrd) (hinv (Nat.minFac r) hmfp hlt)
  · have : Nat.minFac r = r := by omega
    rw [← this]
    exact hmfp

lemma kfFactorLoop_spec :
    ∀ (fuel n p fsqrt : ℕ), 2 ≤ n → n ≤ fuel → Nat.sqrt n ≤ fsqrt →
    2 ≤ p → (p = 4 ∨ p ≤ fsqrt) → (p = 4 ∨ p = 2 ∨ p % 2 = 1) →
    (p = 4 ∨ ∀ q, Nat.Prime q → q < p → ¬ (q ∣ n)) →
    factChainB n (kfFactorLoop fsqrt fuel n p) = true ∧
    (∀ pr ∈ facPairs (kfFactorLoop fsqrt fuel n p),
       pr.1 = 4 ∨ Nat.Prime pr.1) := by
  intro fuel
  induction fuel with
  | zero =>
    intro n p fsqrt hn hfuel hsq hp2 hpform hpar hinv
    exact absurd (hn.trans hfuel) (by omega)
  | succ fuel ih =>
    intro n p fsqrt hn hfuel hsq hp2 hpform hpar hinv
    have hspec := kfFindP_spec (n + fsqrt + 5) n fsqrt p hn hsq hp2 hpform
      (fun _ => by omega) (fun _ => by omega) hpar hinv
    set r := kfFindP n fsqrt (n + fsqrt + 5) p with hr
    obtain ⟨hdvd0, hr2, hform, hinvr⟩ := hspec
    have hdvd : r ∣ n := Nat.dvd_of_mod_eq_zero hdvd0
    have hrn : r ≤ n := Nat.le_of_dvd (by omega) hdvd
    have hm : r * (n / r) = n := Nat.mul_div_cancel' hdvd
    have hmpos : 0 < n / r := Nat.div_pos hrn (by omega)
    have hrprime : r = 4 ∨ Nat.Prime r := by
      rcases hinvr with h | h
      · exact Or.inl h
      · exact Or.inr (minFac_radix_prime hr2 hdvd h)
    have h2m : 2 * (n / r) ≤ n := by
      calc 2 * (n / r) ≤ r * (n / r) := Nat.mul_le_mul_right (n / r) hr2
      _ = n := hm
    simp only [kfFactorLoop]
    rw [← hr]
    by_cases hm1 : 1 < n / r
    · rw [if_pos hm1]
      have hrles : r = 4 ∨ r ≤ fsqrt := by
        rcases hform with h | h | h
        · exact Or.inl h
        · exact Or.inr h
        · exfalso
          rw [h] at hm
          have hdd : n / n = 1 := Nat.div_self (by omega)
          rw [h, hdd] at hm1
          omega
      have hrpar : r = 4 ∨ r = 2 ∨ r % 2 = 1 := by
        rcases hrprime with h | h
        · exact Or.inl h
        · rcases h.eq_two_or_odd with h2 | hodd
          · exact Or.inr (Or.inl h2)
          · exact Or.inr (Or.inr hodd)
      have hinvm : r = 4 ∨ ∀ q, Nat.Prime q → q < r → ¬ (q ∣ n / r) := by
        rcases hinvr with h | h
        · exact Or.inl h
        · refine Or.inr ?_
          intro q hq hql hqd
          exact h q hq hql (hqd.trans (Nat.div_dvd_of_dvd hdvd))
      have hrec := ih (n / r) r fsqrt (by omega) (by omega)
        ((Nat.sqrt_le_sqrt (by omega)).trans hsq) hr2 hrles hrpar hinvm
      obtain ⟨hc1, hc2⟩ := hrec
      constructor
      · simp only [factChainB, if_neg (by omega : ¬ n / r ≤ 1),
          Bool.and_eq_true, beq_iff_eq]
        exact ⟨hm, hc1⟩
      · intro pr hpr
        simp only [facPairs] at hpr
        rcases List.mem_cons.mp hpr with h | h
        · rw [h]
          exact hrprime
        · exact hc2 pr h
    · rw [if_neg hm1]
      have hm1e : n / r = 1 := by omega
      have hrn2 : r = n := by
        rw [hm1e, mul_one] at hm
        exact hm
      constructor
      · have hdd : n / n = 1 := Nat.div_self (by omega)
        simp [factChainB, hm1e, hrn2, hdd]
      · intro pr hpr
        simp only [facPairs] at hpr
        rcases List.mem_cons.mp hpr with h | h
        · rw [h]
          exact hrprime
        · simp at h

lemma kf_factor_chain (n : ℕ) (hn : 1 ≤ n) :
    factChainB n (kf_factor n) = true := by
  rcases Nat.lt_or_ge n 2 with h1 | h2
  · have hn1 : n = 1 := by omega
    subst hn1
    decide
  · unfold kf_factor
    exact (kfFactorLoop_spec (n + 1) n 4 (Nat.sqrt n) h2 (by omega) (le_refl _)
      (by omega) (Or.inl rfl) (Or.inl rfl) (Or.inl rfl)).1

lemma kf_factor_radices (n : ℕ) (hn : 2 ≤ n) :
    ∀ pr ∈ facPairs (kf_factor n), pr.1 = 4 ∨ Nat.Prime pr.1 := by
  unfold kf_factor
  exact (kfFactorLoop_spec (n + 1) n 4 (Nat.sqrt n) hn (by omega) (le_refl _)
    (by omega) (Or.inl rfl) (Or.inl rfl) (Or.inl rfl)).2

lemma factChain_product_aux :
    ∀ (len : ℕ) (fs : List ℕ) (n : ℕ), fs.length ≤ len → 1 ≤ n →
      factChainB n fs = true →
      ((facPairs fs).map Prod.fst).prod = n ∧
        chainFromB n (facPairs fs) = true := by
  intro len
  induction len with
  | zero =>
    intro fs n hlen hn hchain
    match fs with
    | [] => simp [factChainB] at hchain
  | succ len ih =>
    intro fs n hlen hn hchain
    match fs with
    | [] => simp [factChainB] at hchain
    | [p] => simp [factChainB] at hchain
    | p :: m :: rest =>
      rcases Nat.lt_or_ge 1 m with hm2 | hm1
      · simp only [factChainB, if_neg (by omega : ¬ m ≤ 1), Bool.and_eq_true,
          beq_iff_eq] at hchain
        obtain ⟨hpm, hchain2⟩ := hchain
        have hp0 : 0 < p := by
          rcases Nat.eq_zero_or_pos p with h | h
          · rw [h] at hpm
            omega
          · exact h
        have hrec := ih rest m (by simp at hlen; omega) (by omega) hchain2
        obtain ⟨hprod, hcf⟩ := hrec
        constructor
        · simp only [facPairs, List.map_cons, List.prod_cons, hprod, hpm]
        · simp only [facPairs, chainFromB, Bool.and_eq_true, beq_iff_eq]
          refine ⟨⟨?_, hpm⟩, hcf⟩
          rw [← hpm, Nat.mul_div_cancel_left m hp0]
      · simp only [factChainB, if_pos hm1, Bool.and_eq_true, beq_iff_eq,
          List.isEmpty_iff] at hchain
        obtain ⟨hpm, hm1e, hrest⟩ := hchain
        subst hm1e
        subst hrest
        constructor
        · simp only [facPairs, List.map_cons, List.map_nil, List.prod_cons,
            List.prod_nil, mul_one]
          omega
        · simp only [facPairs, chainFromB, Bool.and_eq_true, beq_iff_eq]
          have hpn : p = n := by omega
          subst hpn
          refine ⟨⟨?_, by omega⟩, trivial⟩
          rw [Nat.div_self (by omega)]

lemma factChain_product (fs : List ℕ) (n : ℕ) (hn : 1 ≤ n)
    (hchain : factChainB n fs = true) :
    ((facPairs fs).map Prod.fst).prod = n ∧
      chainFromB n (facPairs fs) = true :=
  factChain_product_aux fs.length fs n (le_refl _) hn hchain

lemma twiddle_inv_mul (n : ℕ) (hn : 0 < n) (k l : ℕ) :
    (twiddle n true 1) ^ k * (twiddle n false 1) ^ l
      = Complex.exp (((2 * Real.pi * ((k : ℝ) - l) / n) : ℝ) * Complex.I) := by
  rw [twiddle_pow_eq, twiddle_pow_eq, twiddle_exp, twiddle_exp, ← Complex.exp_add]
  congr 1
  simp only [dirSign, if_pos rfl, if_neg Bool.false_ne_true]
  push_cast
  ring

lemma exp_ratio_ne_one (n : ℕ) (hn : 0 < n) (k l : ℕ) (hk : k < n) (hl : l < n)
    (hne : k ≠ l) :
    Complex.exp (((2 * Real.pi * ((k : ℝ) - l) / n) : ℝ) * Complex.I) ≠ 1 := by
  intro h
  rw [Complex.exp_eq_one_iff] at h
  obtain ⟨c, hc⟩ := h
  have hnR : (n : ℝ) ≠ 0 := Nat.cast_ne_zero.mpr hn.ne'
  have hne2 : (2 : ℝ) * Real.pi ≠ 0 := by positivity
  have him : 2 * Real.pi * ((k : ℝ) - l) / n = (c : ℝ) * (2 * Real.pi) := by
    have h1 := congrArg Complex.im hc
    simpa using h1
  have him3 : (2 * Real.pi) * (((k : ℝ) - l) / n) = (2 * Real.pi) * c := by
    linear_combination him
  have him4 : ((k : ℝ) - l) / n = c := mul_left_cancel₀ hne2 him3
  have h2 : ((k : ℝ) - l) = c * n := by
    rw [div_eq_iff hnR] at him4
    exact him4
  have hcn : c = 0 := by
    by_contra hc0
    have h1c : (1 : ℝ) ≤ |(c : ℝ)| := by
      exact_mod_cast Int.one_le_abs hc0
    have hkR : (k : ℝ) < n := by exact_mod_cast hk
    have hlR : (l : ℝ) < n := by exact_mod_cast hl
    have hk0 : (0 : ℝ) ≤ k := Nat.cast_nonneg k
    have hl0 : (0 : ℝ) ≤ l := Nat.cast_nonneg l
    have habs : |((k : ℝ) - l)| < n := by
      rw [abs_lt]
      constructor <;> linarith
    rw [h2, abs_mul, Nat.abs_cast n] at habs
    nlinarith [habs, h1c]
  rw [hcn] at h2
  push_cast at h2
  have : (k : ℝ) = l := by linarith
  exact hne (by exact_mod_cast this)

lemma dft_dft (n : ℕ) (hn : 1 ≤ n) (x : ℕ → ℂ) (k : ℕ) (hk : k < n) :
    dft n true (fun j => dft n false x j) k = n * x k := by
  unfold dft
  have step1 : ∀ j : ℕ,
      (∑ l in Finset.range n, x l * (twiddle n false 1) ^ (l * j))
          * (twiddle n true 1) ^ (j * k)
        = ∑ l in Finset.range n, x l
            * ((twiddle n true 1) ^ k * (twiddle n false 1) ^ l) ^ j := by
    intro j
    rw [Finset.sum_mul]
    apply Finset.sum_congr rfl
    intro l _
    rw [mul_assoc]
    congr 1
    rw [mul_pow, ← pow_mul, ← pow_mul, Nat.mul_comm k j, Nat.mul_comm l j]
    exact mul_comm _ _
  rw [Finset.sum_congr rfl (fun j _ => step1 j), Finset.sum_comm]
  have hz : ∀ l : ℕ, (twiddle n true 1) ^ k * (twiddle n false 1) ^ l
      = Complex.exp (((2 * Real.pi * ((k : ℝ) - l) / n) : ℝ) * Complex.I) :=
    fun l => twiddle_inv_mul n (by omega) k l
  have hsum : ∀ l ∈ Finset.range n,
      (∑ j in Finset.range n, x l
        * ((twiddle n true 1) ^ k * (twiddle n false 1) ^ l) ^ j)
      = if l = k then (n : ℂ) * x k else 0 := by
    intro l hl
    rw [Finset.mem_range] at hl
    rw [← Finset.mul_sum]
    by_cases hlk : l = k
    · subst hlk
      rw [if_pos rfl]
      have hz1 : (twiddle n true 1) ^ l * (twiddle n false 1) ^ l = 1 := by
        rw [hz l]
        simp
      rw [hz1]
      simp [mul_comm]
    · rw [if_neg hlk]
      have hzn : ((twiddle n true 1) ^ k * (twiddle n false 1) ^ l) ^ n = 1 := by
        rw [mul_pow, ← pow_mul, ← pow_mul, Nat.mul_comm k n, Nat.mul_comm l n,
          pow_mul, pow_mul, twiddle_one_pow_self n (by omega) true,
          twiddle_one_pow_self n (by omega) false]
        simp
      have hzne : (twiddle n true 1) ^ k * (twiddle n false 1) ^ l ≠ 1 := by
        rw [hz l]
        exact exp_ratio_ne_one n (by omega) k l hk hl (fun h => hlk h.symm)
      rw [geom_sum_eq hzne n, hzn]
      simp
  rw [Finset.sum_congr rfl hsum]
  rw [Finset.sum_ite_eq' (Finset.range n) k (fun _ => (n : ℂ) * x k)]
  rw [if_pos (Finset.mem_range.mpr hk)]

lemma kiss_fft_stride_dft (n : ℕ) (hn : 1 ≤ n) (b : Bool) (x : ℕ → ℂ)
    (j : ℕ) (hj : j < n) :
    kiss_fft_stride (kiss_fft_alloc n b) x 1 j = dft n b x j := by
  unfold kiss_fft_stride
  rw [kf_work_eq (kiss_fft_alloc n b) (kiss_fft_alloc n b).factors n x 1 1
    (kf_factor_chain n hn) hn rfl (by simp [kiss_fft_alloc]) one_pos j hj]
  simp [kiss_fft_alloc]

lemma kfLeafCopy_frame (inA outA s : ℕ) (mem : Mem) :
    ∀ (k : ℕ) (x : ℕ), x < outA ∨ outA + k ≤ x →
      kfLeafCopy inA outA s k mem x = mem x := by
  intro k
  induction k with
  | zero => intro x _; rfl
  | succ k ih =>
    intro x hx
    simp only [kfLeafCopy]
    rw [Function.update_noteq (by omega : x ≠ outA + k)]
    exact ih x (by omega)

lemma kfLeafCopy_at (inA outA s : ℕ) (mem : Mem) :
    ∀ (p : ℕ), outA + p ≤ inA → ∀ k, k < p →
      kfLeafCopy inA outA s p mem (outA + k) = mem (inA + k * s) := by
  intro p
  induction p with
  | zero => intro _ k hk; exact absurd hk (Nat.not_lt_zero k)
  | succ p ih =>
    intro hle k hk
    simp only [kfLeafCopy]
    by_cases hkp : k = p
    · subst hkp
      rw [Function.update_same]
      exact kfLeafCopy_frame inA outA s mem k (inA + k * s)
        (Or.inr (le_trans (by omega : outA + k ≤ inA)
          (Nat.le_add_right inA (k * s))))
    · rw [Function.update_noteq (by omega : outA + k ≠ outA + p)]
      exact ih (by omega) k (by omega)

lemma kf_bfly_congr (st : kiss_fft_state) (p m fstride : ℕ) (F G : ℕ → ℂ)
    (h : ∀ i, i < p * m → F i = G i) (k : ℕ) (hk : k < p * m) :
    kf_bfly st p F fstride m k = kf_bfly st p G fstride m k := by
  have hm : 0 < m := by
    rcases Nat.eq_zero_or_pos m with h0 | h0
    · rw [h0, Nat.mul_zero] at hk
      exact absurd hk (Nat.not_lt_zero k)
    · exact h0
  have hp0 : 0 < p := by
    rcases Nat.eq_zero_or_pos p with h0 | h0
    · rw [h0, Nat.zero_mul] at hk
      exact absurd hk (Nat.not_lt_zero k)
    · exact h0
  have hb : ∀ c, c < p → k % m + c * m < p * m := by
    intro c hc
    have hu : k % m < m := Nat.mod_lt _ hm
    calc k % m + c * m < m + c * m := by omega
      _ = (c + 1) * m := by ring
      _ ≤ p * m := Nat.mul_le_mul_right m (by omega)
  have hrw : ∀ c, c < p → F (k % m + c * m) = G (k % m + c * m) :=
    fun c hc => h _ (hb c hc)
  have hrw0 : F (k % m) = G (k % m) := by
    have h0 := hrw 0 hp0
    simpa using h0
  unfold kf_bfly
  by_cases h2 : p = 2
  · subst h2
    rw [if_pos rfl, if_pos rfl]
    simp only [kf_bfly2, C_MUL, C_ADD, C_SUB, C_FIXDIV]
    rw [if_pos hk, if_pos hk, hrw0,
      show F (k % m + m) = G (k % m + m) from by simpa using hrw 1 (by omega)]
  · rw [if_neg h2, if_neg h2]
    by_cases h3 : p = 3
    · subst h3
      rw [if_pos rfl, if_pos rfl]
      simp only [kf_bfly3, C_MUL, C_ADD, C_SUB, C_FIXDIV]
      rw [if_pos hk, if_pos hk, hrw0,
        show F (k % m + m) = G (k % m + m) from by simpa using hrw 1 (by omega),
        hrw 2 (by omega)]
    · rw [if_neg h3, if_neg h3]
      by_cases h4 : p = 4
      · subst h4
        rw [if_pos rfl, if_pos rfl]
        simp only [kf_bfly4, C_MUL, C_ADD, C_SUB, C_FIXDIV]
        rw [if_pos hk, if_pos hk, hrw0,
          show F (k % m + m) = G (k % m + m) from by simpa using hrw 1 (by omega),
          hrw 2 (by omega), hrw 3 (by omega)]
      · rw [if_neg h4, if_neg h4]
        by_cases h5 : p = 5
        · subst h5
          rw [if_pos rfl, if_pos rfl]
          simp only [kf_bfly5, C_MUL, C_ADD, C_SUB, C_FIXDIV, S_MUL]
          rw [if_pos hk, if_pos hk, hrw0,
            show F (k % m + m) = G (k % m + m) from by simpa using hrw 1 (by omega),
            hrw 2 (by omega), hrw 3 (by omega), hrw 4 (by omega)]
        · rw [if_neg h5, if_neg h5]
          simp only [kf_bfly_generic, C_FIXDIV]
          rw [if_pos hk, if_pos hk]
          rw [generic_fold_spec st.twiddles (fun q1 => F (k % m + q1 * m))
              st.nfft fstride k (p - 1),
            generic_fold_spec st.twiddles (fun q1 => G (k % m + q1 * m))
              st.nfft fstride k (p - 1)]
          simp only
          rw [hrw 0 hp0]
          congr 1
          refine Finset.sum_congr rfl fun q hq => ?_
          rw [Finset.mem_range] at hq
          rw [hrw (q + 1) (by omega)]

lemma kf_work_mem_spec (st : kiss_fft_state) :
    ∀ (len : ℕ) (fs : List ℕ), fs.length ≤ len →
    ∀ (n : ℕ) (mem : Mem) (outA inA fstride in_stride : ℕ),
      factChainB n fs = true → 1 ≤ n → outA + n ≤ inA →
      (∀ x, x < outA ∨ outA + n ≤ x →
        kf_work_mem st fs mem outA inA fstride in_stride x = mem x)
      ∧ (∀ j, j < n →
        kf_work_mem st fs mem outA inA fstride in_stride (outA + j)
          = kf_work st fs (fun i => mem (inA + i)) fstride in_stride j) := by
  intro len
  induction len with
  | zero =>
    intro fs hlen n mem outA inA fstride in_stride hchain hn hsep
    match fs with
    | [] => simp [factChainB] at hchain
  | succ len ih =>
    intro fs hlen n mem outA inA fstride in_stride hchain hn hsep
    match fs with
    | [] => simp [factChainB] at hchain
    | [p] => simp [factChainB] at hchain
    | p :: m :: rest =>
      rcases Nat.lt_or_ge 1 m with hm2 | hm1
      · -- recursive case: m ≥ 2
        simp only [factChainB, if_neg (by omega : ¬ m ≤ 1), Bool.and_eq_true,
          beq_iff_eq] at hchain
        obtain ⟨hpm, hchain2⟩ := hchain
        have hm0 : 0 < m := by omega
        have hp0 : 0 < p := by
          rcases Nat.eq_zero_or_pos p with h | h
          · rw [h] at hpm
            omega
          · exact h
        have hrl : rest.length ≤ len := by
          simp at hlen
          omega
        have hfold : ∀ c, c ≤ p →
            (∀ x, x < outA ∨ outA + c * m ≤ x →
              (List.range c).foldl
                (fun mm cc =>
                  kf_work_mem st rest mm (outA + cc * m)
                    (inA + cc * (fstride * in_stride)) (fstride * p) in_stride)
                mem x = mem x)
            ∧ (∀ cc j, cc < c → j < m →
              (List.range c).foldl
                (fun mm cc =>
                  kf_work_mem st rest mm (outA + cc * m)
                    (inA + cc * (fstride * in_stride)) (fstride * p) in_stride)
                mem (outA + cc * m + j)
                = kf_work st rest
                    (fun i => mem (inA + cc * (fstride * in_stride) + i))
                    (fstride * p) in_stride j) := by
          intro c
          induction c with
          | zero =>
            exact fun _ => ⟨fun x _ => rfl,
              fun cc j hcc _ => absurd hcc (Nat.not_lt_zero cc)⟩
          | succ c ihc =>
            intro hcp
            obtain ⟨ih1, ih2⟩ := ihc (by omega)
            have hcm : c * m + m ≤ n := by
              have h1 : (c + 1) * m ≤ p * m := Nat.mul_le_mul_right m (by omega)
              rw [add_one_mul] at h1
              omega
            have hblock : outA + c * m + m ≤ inA + c * (fstride * in_stride) :=
              le_trans (by omega : outA + c * m + m ≤ inA)
                (Nat.le_add_right inA (c * (fstride * in_stride)))
            obtain ⟨s1, s2⟩ := ih rest hrl m
              ((List.range c).foldl
                (fun mm cc =>
                  kf_work_mem st rest mm (outA + cc * m)
                    (inA + cc * (fstride * in_stride)) (fstride * p) in_stride)
                mem)
              (outA + c * m) (inA + c * (fstride * in_stride)) (fstride * p)
              in_stride hchain2 (by omega) hblock
            rw [List.range_succ]
            constructor
            · intro x hx
              rw [List.foldl_append, List.foldl_cons, List.foldl_nil]
              have hx1 : x < outA + c * m ∨ outA + c * m + m ≤ x := by
                rcases hx with hxl | hxr
                · exact Or.inl (by omega)
                · rw [add_one_mul] at hxr
                  exact Or.inr (by omega)
              rw [s1 x hx1]
              have hx2 : x < outA ∨ outA + c * m ≤ x := by
                rcases hx with hxl | hxr
                · exact Or.inl hxl
                · rw [add_one_mul] at hxr
                  exact Or.inr (by omega)
              exact ih1 x hx2
            · intro cc j hcc hj
              rw [List.foldl_append, List.foldl_cons, List.foldl_nil]
              by_cases hccc : cc = c
              · subst hccc
                rw [s2 j hj]
                have hfe : (fun i =>
                    (List.range cc).foldl
                      (fun mm cc2 =>
                        kf_work_mem st rest mm (outA + cc2 * m)
                          (inA + cc2 * (fstride * in_stride)) (fstride * p)
                          in_stride)
                      mem (inA + cc * (fstride * in_stride) + i))
                    = (fun i => mem (inA + cc * (fstride * in_stride) + i)) := by
                  funext i
                  exact ih1 _ (Or.inr (le_trans (by omega : outA + cc * m ≤ inA)
                    (by omega)))
                rw [hfe]
              · have hcclt : cc < c := by omega
                have hfr : outA + cc * m + j < outA + c * m := by
                  have h1 : (cc + 1) * m ≤ c * m := Nat.mul_le_mul_right m (by omega)
                  rw [add_one_mul] at h1
                  omega
                rw [s1 _ (Or.inl hfr)]
                exact ih2 cc j hcclt hj
        obtain ⟨f1, f2⟩ := hfold p (le_refl p)
        constructor
        · intro x hx
          simp only [kf_work_mem, if_neg (by omega : ¬ m = 1)]
          have hxo : ¬ (outA ≤ x ∧ x < outA + p * m) := by
            rcases hx with hxl | hxr
            · omega
            · omega
          simp only [kfBlockWrite]
          rw [if_neg hxo]
          have hx2 : x < outA ∨ outA + p * m ≤ x := by
            rcases hx with hxl | hxr
            · exact Or.inl hxl
            · exact Or.inr (by omega)
          exact f1 x hx2
        · intro j hj
          simp only [kf_work_mem, kf_work, if_neg (by omega : ¬ m = 1)]
          simp only [kfBlockWrite]
          rw [if_pos ⟨Nat.le_add_right outA j, by omega⟩,
            show outA + j - outA = j from by omega]
          refine kf_bfly_congr st p m fstride _ _ ?_ j (by omega)
          intro i hi
          have hc : i / m < p := (Nat.div_lt_iff_lt_mul hm0).mpr hi
          have hj2 : i % m < m := Nat.mod_lt _ hm0
          have hcomm : (i / m) * m = m * (i / m) := Nat.mul_comm _ _
          have hdm := Nat.div_add_mod i m
          have hi2 : outA + i = outA + (i / m) * m + i % m := by omega
          rw [hi2, f2 (i / m) (i % m) hc hj2]
          have hfe : (fun i2 => mem (inA + i / m * (fstride * in_stride) + i2))
              = (fun i2 => mem (inA + (i2 + i / m * (fstride * in_stride)))) := by
            funext i2
            congr 1
            ring
          rw [hfe]
      · -- leaf case: m = 1
        simp only [factChainB, if_pos hm1, Bool.and_eq_true, beq_iff_eq,
          List.isEmpty_iff] at hchain
        obtain ⟨hpm, hm1e, hrest⟩ := hchain
        subst hm1e
        subst hrest
        have hpn : p = n := by omega
        constructor
        · intro x hx
          simp only [kf_work_mem, eq_self_iff_true, if_true]
          simp only [kfBlockWrite]
          rw [if_neg (by omega : ¬ (outA ≤ x ∧ x < outA + p * 1))]
          exact kfLeafCopy_frame inA outA (fstride * in_stride) mem p x (by omega)
        · intro j hj
          simp only [kf_work_mem, kf_work, eq_self_iff_true, if_true]
          simp only [kfBlockWrite]
          rw [if_pos ⟨Nat.le_add_right outA j, by omega⟩,
            show outA + j - outA = j from by omega]
          refine kf_bfly_congr st p 1 fstride _ _ ?_ j (by omega)
          intro i hi
          rw [kfLeafCopy_at inA outA (fstride * in_stride) mem p (by omega) i
            (by omega)]

/-- C1: for every length `N ≥ 1`, every direction-matched pair of plans and
every input sequence `x`, running the forward transform, then the inverse
transform, and scaling by `1/N` returns `x` (exactly, in the exact-arithmetic
model of the floating-point engine). -/
theorem claim_C1_roundtrip (n : ℕ) (hn : 1 ≤ n) (x : ℕ → ℂ) (k : ℕ)
    (hk : k < n) :
    kiss_fft_stride (kiss_fft_alloc n true)
        (kiss_fft_stride (kiss_fft_alloc n false) x 1) 1 k / (n : ℂ) = x k := by
  have hn0 : (n : ℂ) ≠ 0 := Nat.cast_ne_zero.mpr (by omega)
  rw [kiss_fft_stride_dft n hn true _ k hk]
  have hcongr : dft n true (kiss_fft_stride (kiss_fft_alloc n false) x 1) k
      = dft n true (fun j => dft n false x j) k := by
    unfold dft
    apply Finset.sum_congr rfl
    intro j hj
    rw [Finset.mem_range] at hj
    rw [kiss_fft_stride_dft n hn false x j hj]
    rfl
  rw [hcongr, dft_dft n hn x k hk, mul_comm, mul_div_assoc, div_self hn0,
    mul_one]

theorem claim_C1_roundtrip_witness :
    (1 ≤ 1 ∧ 0 < 1) ∧
      kiss_fft_stride (kiss_fft_alloc 1 true)
          (kiss_fft_stride (kiss_fft_alloc 1 false) (fun _ => 1) 1) 1 0
          / ((1 : ℕ) : ℂ) = 1 :=
  ⟨⟨le_refl 1, Nat.zero_lt_one⟩,
   claim_C1_roundtrip 1 (by decide) (fun _ => 1) 0 (by decide)⟩

/-- C3: for every `N ≥ 1` the factor sequence built by `kf_factor`
multiplies back to `N` (product of radices is exactly `N`), and every
emitted pair `(p, m)` satisfies `m = prev / p` and `p * m = prev`, where
`prev` is the previous remaining length (starting at `N`). -/
theorem claim_C3_factor_invariant (n : ℕ) (hn : 1 ≤ n) :
    ((facPairs (kf_factor n)).map Prod.fst).prod = n ∧
      chainFromB n (facPairs (kf_factor n)) = true :=
  factChain_product (kf_factor n) n hn (kf_factor_chain n hn)

theorem claim_C3_witness :
    1 ≤ 360 ∧
      (((facPairs (kf_factor 360)).map Prod.fst).prod = 360 ∧
        chainFromB 360 (facPairs (kf_factor 360)) = true) :=
  ⟨by decide, claim_C3_factor_invariant 360 (by decide)⟩

lemma kf_factor_six : kf_factor 6 = [2, 3, 3, 1] := by
  unfold kf_factor
  rw [show Nat.sqrt 6 = 2 from by norm_num]
  rfl

/-- C5: the trial radix of the factorizer cycles 4, 2, 3, 5, 7, 9, ...
(odd increments of 2 after 3); as soon as the advanced trial value
exceeds the stored square-root threshold, the entire remaining length is
emitted as the final radix and the sequence terminates with `[n, 1]`;
consequently every emitted radix is 4 or a prime, so at most one
non-decomposed prime factor remains and it appears as a single final
radix. -/
theorem claim_C5_trial_cycle :
    (kfNextP 4 = 2 ∧ kfNextP 2 = 3 ∧ ∀ p, 3 ≤ p → p ≠ 4 → kfNextP p = p + 2)
    ∧ (∀ (n fsqrt fuel p : ℕ), 2 ≤ n → n % p ≠ 0 → fsqrt < kfNextP p →
         kfFactorLoop fsqrt (fuel + 1) n p = [n, 1])
    ∧ (∀ n : ℕ, 2 ≤ n →
         ∀ pr ∈ facPairs (kf_factor n), pr.1 = 4 ∨ Nat.Prime pr.1) := by
  refine ⟨⟨rfl, rfl, ?_⟩, ?_, ?_⟩
  · intro p h3 h4
    unfold kfNextP
    rw [if_neg h4, if_neg (by omega : ¬ p = 2)]
  · intro n fsqrt fuel p hn hnd hclamp
    have hfind : kfFindP n fsqrt (n + fsqrt + 5) p = n := by
      rw [show n + fsqrt + 5 = (n + fsqrt + 4) + 1 by omega]
      rw [kfFindP]
      rw [if_neg hnd]
      show kfFindP n fsqrt (n + fsqrt + 4)
        (if fsqrt < kfNextP p then n else kfNextP p) = n
      rw [if_pos hclamp]
      exact kfFindP_self n fsqrt n (Nat.mod_self n) _
    simp only [kfFactorLoop, hfind]
    rw [Nat.div_self (by omega)]
    simp
  · exact fun n hn => kf_factor_radices n hn

theorem claim_C5_witness :
    kfNextP 7 = 9 ∧ kfFactorLoop 2 (0 + 1) 7 3 = [7, 1] ∧
      ((2, 3).1 = 4 ∨ Nat.Prime ((2, 3) : ℕ × ℕ).1) :=
  ⟨claim_C5_trial_cycle.1.2.2 7 (by decide) (by decide),
   claim_C5_trial_cycle.2.1 7 2 0 3 (by decide) (by decide) (by decide),
   claim_C5_trial_cycle.2.2 6 (by decide) (2, 3)
     (by rw [kf_factor_six]; decide)⟩

/-- C6: under the stage invariant `fstride * (p * m) = N` and with the
plan's twiddle table, the generic butterfly writes to each in-range
output position `k` the sum over the `p` sub-transform values of
`input[q]` times `twiddles[(fstride * k * q) mod N]`; moreover the
running twiddle index after any number of accumulation steps equals the
explicitly reduced `(fstride * k * q) mod N` and always lies below `N`
(within the twiddle table bounds). -/
theorem claim_C6_generic_butterfly (st : kiss_fft_state) (N fstride m p : ℕ)
    (xs : ℕ → ℂ)
    (htw : st.twiddles = twiddle N st.inverse) (hnfft : st.nfft = N)
    (hN : N = fstride * (p * m)) (hf : 0 < fstride) (hm : 0 < m) (hp : 0 < p)
    (k : ℕ) (hk : k < p * m) :
    kf_bfly_generic xs fstride st m p k
      = (∑ q in Finset.range p,
          C_FIXDIV (xs (k % m + q * m)) p * st.twiddles ((fstride * k * q) % N))
    ∧ ∀ q : ℕ, kfTwidx st.nfft fstride k q = (fstride * k * q) % N
        ∧ kfTwidx st.nfft fstride k q < N := by
  have hpm : 0 < p * m := Nat.mul_pos hp hm
  have hNpos : 0 < N := by
    rw [hN]
    exact Nat.mul_pos hf hpm
  have hfk : fstride * k < N := by
    rw [hN]
    exact (mul_lt_mul_left hf).mpr hk
  constructor
  · simp only [kf_bfly_generic, hnfft, C_FIXDIV]
    rw [if_pos hk]
    rw [generic_fold_spec st.twiddles (fun q1 => xs (k % m + q1 * m))
        N fstride k (p - 1)]
    simp only
    have hsum : ∑ q in Finset.range (p - 1),
          xs (k % m + (q + 1) * m) * st.twiddles (kfTwidx N fstride k (q + 1))
        = ∑ q in Finset.range (p - 1),
          xs (k % m + (q + 1) * m)
            * st.twiddles ((fstride * k * (q + 1)) % N) := by
      refine Finset.sum_congr rfl fun q _ => ?_
      rw [kfTwidx_eq N fstride k hfk (q + 1)]
    rw [hsum]
    conv_rhs => rw [show p = (p - 1) + 1 by omega]
    rw [Finset.sum_range_succ']
    simp only [mul_zero, Nat.zero_mod, zero_mul, add_zero, htw,
      twiddle_zero, mul_one]
    exact add_comm _ _
  · intro q
    rw [hnfft]
    exact ⟨kfTwidx_eq N fstride k hfk q, kfTwidx_lt N fstride k hfk q⟩

theorem claim_C6_witness :
    (kf_bfly_generic (fun _ => 1) 1 (kiss_fft_alloc 6 false) 1 6 0
      = (∑ q in Finset.range 6,
          C_FIXDIV ((fun _ => (1 : ℂ)) (0 % 1 + q * 1)) 6
            * (kiss_fft_alloc 6 false).twiddles ((1 * 0 * q) % 6)))
    ∧ ∀ q : ℕ, kfTwidx (kiss_fft_alloc 6 false).nfft 1 0 q = (1 * 0 * q) % 6
        ∧ kfTwidx (kiss_fft_alloc 6 false).nfft 1 0 q < 6 :=
  claim_C6_generic_butterfly (kiss_fft_alloc 6 false) 6 1 1 6 (fun _ => 1)
    rfl rfl (by decide) (by decide) (by decide) (by decide) 0 (by decide)

/-- C7: with a fixed (already direction-signed) twiddle table `tw`, the
radix-2, radix-3 and radix-5 butterflies and the generic butterfly
compute identical outputs for the forward and inverse settings of the
plan's direction flag; the radix-4 butterfly agrees between directions
on the even output blocks and differs on the two odd output blocks
exactly by the sign of twice the quarter-turn (multiplication by `I`,
a swap-and-negate of real and imaginary parts) of the intermediate
difference `s4 = s0 - s2`. -/
theorem claim_C7_direction (tw : ℕ → ℂ) (N : ℕ) (fa : List ℕ)
    (Fout : ℕ → ℂ) (fstride m : ℕ) :
    kf_bfly2 Fout fstride ⟨N, false, tw, fa⟩ m
      = kf_bfly2 Fout fstride ⟨N, true, tw, fa⟩ m
    ∧ kf_bfly3 Fout fstride ⟨N, false, tw, fa⟩ m
      = kf_bfly3 Fout fstride ⟨N, true, tw, fa⟩ m
    ∧ kf_bfly5 Fout fstride ⟨N, false, tw, fa⟩ m
      = kf_bfly5 Fout fstride ⟨N, true, tw, fa⟩ m
    ∧ (∀ p, kf_bfly_generic Fout fstride ⟨N, false, tw, fa⟩ m p
        = kf_bfly_generic Fout fstride ⟨N, true, tw, fa⟩ m p)
    ∧ (∀ k, k < m ∨ (2 * m ≤ k ∧ k < 3 * m) ∨ 4 * m ≤ k →
        kf_bfly4 Fout fstride ⟨N, true, tw, fa⟩ m k
          = kf_bfly4 Fout fstride ⟨N, false, tw, fa⟩ m k)
    ∧ (∀ k, m ≤ k → k < 2 * m →
        kf_bfly4 Fout fstride ⟨N, true, tw, fa⟩ m k
          - kf_bfly4 Fout fstride ⟨N, false, tw, fa⟩ m k
          = 2 * Complex.I
            * C_SUB (C_MUL (C_FIXDIV (Fout (k % m + m)) 4) (tw (k % m * fstride)))
                (C_MUL (C_FIXDIV (Fout (k % m + 3 * m)) 4)
                  (tw (k % m * (fstride * 3)))))
    ∧ (∀ k, 3 * m ≤ k → k < 4 * m →
        kf_bfly4 Fout fstride ⟨N, true, tw, fa⟩ m k
          - kf_bfly4 Fout fstride ⟨N, false, tw, fa⟩ m k
          = -(2 * Complex.I
            * C_SUB (C_MUL (C_FIXDIV (Fout (k % m + m)) 4) (tw (k % m * fstride)))
                (C_MUL (C_FIXDIV (Fout (k % m + 3 * m)) 4)
                  (tw (k % m * (fstride * 3)))))) := by
  refine ⟨rfl, rfl, rfl, fun p => rfl, ?_, ?_, ?_⟩
  · intro k hk
    rcases hk with h | ⟨h1, h2⟩ | h
    · have h4 : k < 4 * m := by omega
      simp only [kf_bfly4, C_MUL, C_ADD, C_SUB, C_FIXDIV]
      rw [if_pos h4, if_pos h, if_pos h4, if_pos h]
    · have h4 : k < 4 * m := by omega
      simp only [kf_bfly4, C_MUL, C_ADD, C_SUB, C_FIXDIV]
      rw [if_pos h4, if_neg (by omega : ¬ k < m),
        if_neg (by omega : ¬ k < 2 * m), if_pos h2, if_pos h4,
        if_neg (by omega : ¬ k < m), if_neg (by omega : ¬ k < 2 * m),
        if_pos h2]
    · have h4 : ¬ k < 4 * m := by omega
      simp only [kf_bfly4]
      rw [if_neg h4, if_neg h4]
  · intro k h1 h2
    rw [kf_bfly4_val_odd1 Fout fstride ⟨N, true, tw, fa⟩ m k h1 h2,
      kf_bfly4_val_odd1 Fout fstride ⟨N, false, tw, fa⟩ m k h1 h2]
    simp only [C_SUB, C_MUL, C_FIXDIV]
    simp
    ring
  · intro k h1 h2
    rw [kf_bfly4_val_odd3 Fout fstride ⟨N, true, tw, fa⟩ m k h1 h2,
      kf_bfly4_val_odd3 Fout fstride ⟨N, false, tw, fa⟩ m k h1 h2]
    simp only [C_SUB, C_MUL, C_FIXDIV]
    simp
    ring

theorem claim_C7_witness :
    kf_bfly4 (fun _ => 1) 1 ⟨4, true, fun _ => 1, []⟩ 1 1
      - kf_bfly4 (fun _ => 1) 1 ⟨4, false, fun _ => 1, []⟩ 1 1
      = 2 * Complex.I
        * C_SUB
            (C_MUL (C_FIXDIV ((fun _ => (1 : ℂ)) (1 % 1 + 1)) 4)
              ((fun _ => (1 : ℂ)) (1 % 1 * 1)))
            (C_MUL (C_FIXDIV ((fun _ => (1 : ℂ)) (1 % 1 + 3 * 1)) 4)
              ((fun _ => (1 : ℂ)) (1 % 1 * (1 * 3)))) :=
  (claim_C7_direction (fun _ => 1) 4 [] (fun _ => 1) 1 1).2.2.2.2.2.1 1
    (by decide) (by decide)

/-- C8: for `N = 1` (either direction), the factorizer emits the single
degenerate pair `radix = 1, remaining = 1`, and the transform of a
one-sample input writes the input sample to the output unchanged, for
any input stride. -/
theorem claim_C8_passthrough :
    kf_factor 1 = [1, 1] ∧
      ∀ (b : Bool) (f : ℕ → ℂ) (in_stride : ℕ),
        kiss_fft_stride (kiss_fft_alloc 1 b) f in_stride 0 = f 0 := by
  constructor
  · decide
  · intro b f in_stride
    simp [kiss_fft_stride, kiss_fft_alloc, show kf_factor 1 = [1, 1] from by decide,
      kf_work, kf_bfly, kf_bfly_generic, C_FIXDIV]

/-- C2: when the transform is called with output aliased to input
(`fin == fout`) and the scratch allocation succeeds, the aliased path
is exactly "run the full decimation into the `N`-length scratch buffer,
then copy scratch into output" (first conjunct, structurally), and the
output values it leaves in the aliased buffer are exactly those of the
out-of-place transform applied to a copy of the input taken before the
call (second conjunct) — the recursion is never executed truly in
place. -/
theorem claim_C2_inplace_equals_copy (n : ℕ) (hn : 1 ≤ n) (b : Bool)
    (mem : Mem) (finA foutA in_stride tmpA : ℕ) (hal : finA = foutA)
    (hsep : tmpA + n ≤ finA) :
    kiss_fft_stride_mem (kiss_fft_alloc n b) mem finA foutA in_stride tmpA
        false true
      = memcpyRange
          (kf_work_mem (kiss_fft_alloc n b) (kiss_fft_alloc n b).factors mem
            tmpA finA 1 in_stride)
          foutA tmpA n
    ∧ ∀ j, j < n →
        kiss_fft_stride_mem (kiss_fft_alloc n b) mem finA foutA in_stride tmpA
          false true (foutA + j)
        = kiss_fft_stride (kiss_fft_alloc n b) (fun i => mem (finA + i))
            in_stride j := by
  have hchain : factChainB n (kiss_fft_alloc n b).factors = true :=
    kf_factor_chain n hn
  have hmain : kiss_fft_stride_mem (kiss_fft_alloc n b) mem finA foutA
        in_stride tmpA false true
      = memcpyRange
          (kf_work_mem (kiss_fft_alloc n b) (kiss_fft_alloc n b).factors mem
            tmpA finA 1 in_stride)
          foutA tmpA n := by
    unfold kiss_fft_stride_mem
    rw [if_pos hal]
    rfl
  refine ⟨hmain, ?_⟩
  intro j hj
  rw [hmain]
  obtain ⟨f1, f2⟩ := kf_work_mem_spec (kiss_fft_alloc n b)
    (kiss_fft_alloc n b).factors.length (kiss_fft_alloc n b).factors
    (le_refl _) n mem tmpA finA 1 in_stride hchain hn hsep
  have hcp : memcpyRange
      (kf_work_mem (kiss_fft_alloc n b) (kiss_fft_alloc n b).factors mem
        tmpA finA 1 in_stride)
      foutA tmpA n (foutA + j)
    = kf_work_mem (kiss_fft_alloc n b) (kiss_fft_alloc n b).factors mem
        tmpA finA 1 in_stride (tmpA + j) := by
    simp only [memcpyRange]
    rw [if_pos ⟨Nat.le_add_right foutA j, by omega⟩,
      show foutA + j - foutA = j from by omega]
  rw [hcp, f2 j hj]
  rfl

theorem claim_C2_witness :
    (1 ≤ 1 ∧ 0 + 1 ≤ 5 ∧ 0 < 1) ∧
      (kiss_fft_stride_mem (kiss_fft_alloc 1 false) (fun _ => 0) 5 5 1 0
          false true
        = memcpyRange
            (kf_work_mem (kiss_fft_alloc 1 false)
              (kiss_fft_alloc 1 false).factors (fun _ => 0) 0 5 1 1)
            5 0 1)
      ∧ kiss_fft_stride_mem (kiss_fft_alloc 1 false) (fun _ => 0) 5 5 1 0
          false true (5 + 0)
        = kiss_fft_stride (kiss_fft_alloc 1 false)
            (fun i => (fun _ => (0 : ℂ)) (5 + i)) 1 0 :=
  ⟨⟨by decide, by decide, by decide⟩,
   (claim_C2_inplace_equals_copy 1 (by decide) false (fun _ => 0) 5 5 1 0 rfl
     (by decide)).1,
   (claim_C2_inplace_equals_copy 1 (by decide) false (fun _ => 0) 5 5 1 0 rfl
     (by decide)).2 0 (by decide)⟩

/-- C9: when the transform is called with output aliased to input and
either the aliased output pointer is NULL or the `N`-length scratch
allocation fails, `kiss_fft_stride` returns after reporting the error
without writing a single sample: the flat memory after the call is
exactly the memory before it. -/
theorem claim_C9_error_unchanged (st : kiss_fft_state) (mem : Mem)
    (finA foutA in_stride tmpA : ℕ) (hal : finA = foutA) :
    (∀ tok : Bool,
      kiss_fft_stride_mem st mem finA foutA in_stride tmpA true tok = mem)
    ∧ kiss_fft_stride_mem st mem finA foutA in_stride tmpA false false
        = mem := by
  constructor
  · intro tok
    unfold kiss_fft_stride_mem
    rw [if_pos hal]
    rfl
  · unfold kiss_fft_stride_mem
    rw [if_pos hal]
    rfl

theorem claim_C9_witness :
    (∀ tok : Bool,
      kiss_fft_stride_mem (kiss_fft_alloc 4 true) (fun _ => 1) 7 7 1 0 true tok
        = (fun _ => 1))
    ∧ kiss_fft_stride_mem (kiss_fft_alloc 4 true) (fun _ => 1) 7 7 1 0
        false false = (fun _ => 1) :=
  claim_C9_error_unchanged (kiss_fft_alloc 4 true) (fun _ => 1) 7 7 1 0 rfl

lemma divLoop_diverges_zero (k : ℕ) (hk : 2 ≤ k) :
    ∀ fuel, divLoop k fuel 0 = none := by
  intro fuel
  induction fuel with
  | zero => rfl
  | succ fuel ih =>
    simp only [divLoop, Nat.zero_mod, if_pos rfl, Nat.zero_div]
    exact ih

lemma divLoop_spec (k : ℕ) (hkp : Nat.Prime k) :
    ∀ (fuel m : ℕ), 1 ≤ m → m ≤ fuel →
      ∃ r, divLoop k fuel m = some r ∧ 1 ≤ r ∧ ¬ (k ∣ r) ∧ r ∣ m ∧
        ∀ q, Nat.Prime q → q ≠ k → q ∣ m → q ∣ r := by
  intro fuel
  induction fuel with
  | zero => intro m hm hle; exact absurd (hm.trans hle) (by decide)
  | succ fuel ih =>
    intro m hm hle
    have hk2 : 2 ≤ k := hkp.two_le
    by_cases hdvd : m % k = 0
    · have hkd : k ∣ m := Nat.dvd_iff_mod_eq_zero.mpr hdvd
      have hmk1 : 1 ≤ m / k :=
        (Nat.one_le_div_iff (by omega)).mpr (Nat.le_of_dvd (by omega) hkd)
      have hlt : m / k < m := Nat.div_lt_self (by omega) (by omega)
      obtain ⟨r, hr, hr1, hrk, hrd, hrq⟩ := ih (m / k) hmk1 (by omega)
      have hdk : m / k ∣ m := ⟨k, (Nat.div_mul_cancel hkd).symm⟩
      refine ⟨r, ?_, hr1, hrk, hrd.trans hdk, ?_⟩
      · simp only [divLoop, if_pos hdvd]
        exact hr
      · intro q hq hqk hqm
        apply hrq q hq hqk
        have hmeq : m = k * (m / k) := (Nat.mul_div_cancel' hkd).symm
        rw [hmeq] at hqm
        rcases (Nat.Prime.dvd_mul hq).mp hqm with h | h
        · exact absurd ((Nat.prime_dvd_prime_iff_eq hq hkp).mp h) hqk
        · exact h
    · refine ⟨m, ?_, hm, ?_, dvd_refl m, fun q _ _ hq => hq⟩
      · simp only [divLoop, if_neg hdvd]
      · rw [Nat.dvd_iff_mod_eq_zero]
        exact hdvd

lemma smooth_trial (n : ℕ) (hn : 1 ≤ n) :
    ∃ m2 m3 m5, divLoop 2 (n + 1) n = some m2
      ∧ divLoop 3 (m2 + 1) m2 = some m3
      ∧ divLoop 5 (m3 + 1) m3 = some m5
      ∧ (m5 ≤ 1 ↔ onlyFactors235 n) := by
  obtain ⟨m2, h2, h21, h2k, h2d, h2q⟩ :=
    divLoop_spec 2 Nat.prime_two (n + 1) n hn (by omega)
  obtain ⟨m3, h3, h31, h3k, h3d, h3q⟩ :=
    divLoop_spec 3 Nat.prime_three (m2 + 1) m2 h21 (by omega)
  obtain ⟨m5, h5, h51, h5k, h5d, h5q⟩ :=
    divLoop_spec 5 (by norm_num) (m3 + 1) m3 h31 (by omega)
  refine ⟨m2, m3, m5, h2, h3, h5, ?_, ?_⟩
  · intro h1 q hq hqn
    by_contra hqno
    push_neg at hqno
    obtain ⟨hq2, hq3, hq5⟩ := hqno
    have hqm5 : q ∣ m5 := h5q q hq hq5 (h3q q hq hq3 (h2q q hq hq2 hqn))
    have hm51 : m5 = 1 := by omega
    rw [hm51] at hqm5
    exact hq.one_lt.ne' (Nat.dvd_one.mp hqm5)
  · intro hsm
    by_contra h1
    push_neg at h1
    have hq := Nat.minFac_prime (by omega : m5 ≠ 1)
    have hqm5 : m5.minFac ∣ m5 := Nat.minFac_dvd m5
    have hqn : m5.minFac ∣ n := ((hqm5.trans h5d).trans h3d).trans h2d
    rcases hsm m5.minFac hq hqn with h | h | h
    · apply h2k
      rw [← h]
      exact (hqm5.trans h5d).trans h3d
    · apply h3k
      rw [← h]
      exact hqm5.trans h5d
    · apply h5k
      rw [← h]
      exact hqm5

lemma nextFastLoop_spec :
    ∀ (fuel n : ℕ), 1 ≤ n →
      (∃ s, n ≤ s ∧ s < n + fuel ∧ onlyFactors235 s) →
      ∃ m, nextFastLoop fuel n = some m ∧ n ≤ m ∧ onlyFactors235 m ∧
        ∀ m2, n ≤ m2 → m2 < m → ¬ onlyFactors235 m2 := by
  intro fuel
  induction fuel with
  | zero =>
    intro n hn hex
    obtain ⟨s, hs1, hs2, _⟩ := hex
    exact absurd hs2 (by omega)
  | succ fuel ih =>
    intro n hn hex
    obtain ⟨m2, m3, m5, h2, h3, h5, hiff⟩ := smooth_trial n hn
    by_cases hsm : m5 ≤ 1
    · refine ⟨n, ?_, le_refl n, hiff.mp hsm, ?_⟩
      · simp only [nextFastLoop, h2, h3, h5, if_pos hsm]
      · intro mm hmm hmm2
        exact absurd hmm (by omega)
    · have hnsm : ¬ onlyFactors235 n := fun hsm2 => hsm (hiff.mpr hsm2)
      obtain ⟨s, hs1, hs2, hs3⟩ := hex
      have hsne : s ≠ n := fun he => hnsm (he ▸ hs3)
      obtain ⟨m, hm, hm1, hm2o, hm3⟩ :=
        ih (n + 1) (by omega) ⟨s, by omega, by omega, hs3⟩
      refine ⟨m, ?_, by omega, hm2o, ?_⟩
      · simp only [nextFastLoop, h2, h3, h5, if_neg hsm]
        exact hm
      · intro mm hmm hmm2
        by_cases hmmn : mm = n
        · rw [hmmn]
          exact hnsm
        · exact hm3 mm (by omega) hmm2

lemma smooth_pow_two (n : ℕ) (hn : 1 ≤ n) :
    ∃ s, n ≤ s ∧ s < n + (n + 2) ∧ onlyFactors235 s := by
  refine ⟨2 ^ (Nat.log 2 n + 1), le_of_lt (Nat.lt_pow_succ_log_self (by norm_num) n), ?_, ?_⟩
  · have h1 : 2 ^ Nat.log 2 n ≤ n := Nat.pow_log_le_self 2 (by omega)
    have h2 : 2 ^ (Nat.log 2 n + 1) = 2 * 2 ^ Nat.log 2 n := by
      rw [pow_succ]
      ring
    omega
  · intro q hq hqd
    left
    exact (Nat.prime_dvd_prime_iff_eq hq Nat.prime_two).mp (hq.dvd_of_dvd_pow hqd)

/-- C4 (amended): for every `n ≥ 1`, `kiss_fft_next_fast_size n` returns
`some m` where `m` is the smallest integer `≥ n` whose only prime factors
are 2, 3 and 5.  The original claim's "for every integer n" fails at
`n = 0`: there the C loop never terminates (see the counterexample
theorem), which the fueled model registers as `none` for every fuel. -/
theorem claim_C4_next_fast_size (n : ℕ) (hn : 1 ≤ n) :
    ∃ m, kiss_fft_next_fast_size n = some m ∧ n ≤ m ∧ onlyFactors235 m ∧
      ∀ m2, n ≤ m2 → m2 < m → ¬ onlyFactors235 m2 :=
  nextFastLoop_spec (n + 2) n hn (smooth_pow_two n hn)

theorem claim_C4_witness :
    1 ≤ 7 ∧ ∃ m, kiss_fft_next_fast_size 7 = some m ∧ 7 ≤ m ∧
      onlyFactors235 m ∧ ∀ m2, 7 ≤ m2 → m2 < m → ¬ onlyFactors235 m2 :=
  ⟨by decide, claim_C4_next_fast_size 7 (by decide)⟩

/-- C4, divergence of the original claim at `n = 0`: the strip loop
`while ((m % k) == 0) m /= k;` never exits on `m = 0` (`0 % 2 == 0` and
`0 / 2 == 0` forever), so `kiss_fft_next_fast_size 0` runs forever in C;
in the fueled model the inner loop and the whole function return `none`
for every fuel, hence no return value exists for `n = 0`. -/
theorem claim_C4_counterexample :
    kiss_fft_next_fast_size 0 = none
      ∧ (∀ fuel, divLoop 2 fuel 0 = none)
      ∧ (∀ fuel, nextFastLoop fuel 0 = none) := by
  refine ⟨rfl, divLoop_diverges_zero 2 (by omega), ?_⟩
  intro fuel
  cases fuel with
  | zero => rfl
  | succ fuel =>
    simp only [nextFastLoop, divLoop_diverges_zero 2 (by omega) 1]

/-- C10: the SIMD data-layout adapters are mutually inverse.  First
conjunct: `SSETools_unpack128` after `SSETools_pack128` restores every
element of the four real blocks (block `lane` at offset
`lane * size128`).  Second conjunct: `SSETools_unpack_2_128_complex`
after `SSETools_pack_2_128_complex` restores every float of each of the
four interleaved complex signals (signal selected by `laneSig`). -/
theorem claim_C10_pack_unpack (tgt tgt2 src : ℕ → ℝ)
    (tgtc : ℕ → ℕ → ℝ) (tgtc2 s0 s1 s2 s3 : ℕ → ℝ)
    (size128 num_elem_fft lane j i : ℕ)
    (hi : i < 4 * size128) (hlane : lane < 4) (hj : j < 2 * num_elem_fft) :
    SSETools_unpack128 tgt (SSETools_pack128 tgt2 src size128) size128 i
      = src i
    ∧ SSETools_unpack_2_128_complex tgtc
        (SSETools_pack_2_128_complex tgtc2 s0 s1 s2 s3 num_elem_fft)
        num_elem_fft lane j
      = laneSig s0 s1 s2 s3 lane j := by
  constructor
  · have hs : 0 < size128 := by omega
    have h1 : i % size128 < size128 := Nat.mod_lt _ hs
    have h2 : i / size128 < 4 := (Nat.div_lt_iff_lt_mul hs).mpr hi
    simp only [SSETools_unpack128, SSETools_pack128]
    rw [if_pos hi,
      if_pos (by omega : 4 * (i % size128) + i / size128 < 4 * size128)]
    have h3 : ∀ t l : ℕ, l < 4 → (4 * t + l) % 4 = l := by
      intro t l hl
      omega
    have h4 : ∀ t l : ℕ, l < 4 → (4 * t + l) / 4 = t := by
      intro t l hl
      omega
    rw [h3 _ _ h2, h4 _ _ h2]
    congr 1
    have hcomm : i / size128 * size128 = size128 * (i / size128) :=
      Nat.mul_comm _ _
    have hdm := Nat.div_add_mod i size128
    omega
  · have hE : 0 < num_elem_fft := by omega
    simp only [SSETools_unpack_2_128_complex, SSETools_pack_2_128_complex]
    rw [if_pos ⟨hlane, hj⟩,
      if_pos (by omega :
        8 * (j / 2) + 4 * (j % 2) + lane < 8 * num_elem_fft)]
    have h5 : (8 * (j / 2) + 4 * (j % 2) + lane) % 8 % 4 = lane := by omega
    have h6 : 2 * ((8 * (j / 2) + 4 * (j % 2) + lane) / 8)
        + (8 * (j / 2) + 4 * (j % 2) + lane) % 8 / 4 = j := by omega
    rw [h5, h6]

theorem claim_C10_witness :
    (2 < 4 * 1 ∧ 1 < 4 ∧ 0 < 2 * 1) ∧
      (SSETools_unpack128 (fun _ => 0)
          (SSETools_pack128 (fun _ => 0) (fun x => (x : ℝ)) 1) 1 2
        = ((fun x => (x : ℝ)) 2)
      ∧ SSETools_unpack_2_128_complex (fun _ _ => 0)
          (SSETools_pack_2_128_complex (fun _ => 0) (fun _ => 1) (fun _ => 2)
            (fun _ => 3) (fun _ => 4) 1) 1 1 0
        = laneSig (fun _ => 1) (fun _ => 2) (fun _ => 3) (fun _ => 4) 1 0) :=
  ⟨⟨by decide, by decide, by decide⟩,
   claim_C10_pack_unpack (fun _ => 0) (fun _ => 0) (fun x => (x : ℝ))
     (fun _ _ => 0) (fun _ => 0) (fun _ => 1) (fun _ => 2) (fun _ => 3)
     (fun _ => 4) 1 1 1 0 2 (by decide) (by decide) (by decide)⟩
